import Mathlib

/-!
The transport `gitkit.ServiceAccountTransport`: a shallow embedding of
`src/gitkit/transport.go`.

Go objects that are reached through references (requests, header maps, the
backing arrays of `[]string` value lists) live in an explicit `Heap`, so that
copying, sharing and in-place mutation can be told apart.  The collaborators of
the transport (the assertion exchanger `jwt.Token.Assert`, the base
`http.RoundTripper`, `oauth.Token.Expired`, `http.DefaultTransport`) are not
part of the package; they are the fields of a `World`.  A collaborator is a
function of its arguments and of the heap it is shown; what it may write to the
heap is not modelled, so the theorems speak of the writes made by the statements
of the transport itself.  Every call the transport makes to a collaborator is
recorded in a trace.
-/

namespace Gitkit

/-! ## Go values -/

/-- A Go `[]string` slice header: the identity of its backing array and its
length. -/
structure Slice where
  arr : Nat
  len : Nat
deriving DecidableEq

/-- The contents of an `http.Header` (`map[string][]string`): distinct keys,
each bound to a slice. -/
abbrev HeaderMap := List (String × Slice)

/-- The fields of `http.Request` the transport is concerned with.  `Header` is a
map reference (`none` is the nil map); `URL` and `Body` are handles that the
struct copy duplicates as they are. -/
structure Request where
  Method : String
  URL : String
  Body : Nat
  Header : Option Nat
deriving DecidableEq

/-- The store of reference objects: request structs, header maps and string
arrays, each addressed by its position. -/
structure Heap where
  reqs : List Request
  hdrs : List HeaderMap
  arrs : List (List String)
deriving DecidableEq

/-- An `oauth.Token`: the bearer string and its expiry instant (0 is the zero
time). -/
structure Token where
  AccessToken : String
  Expiry : Nat
deriving DecidableEq

/-- An `http.Client` literal with only its `Transport` field set. -/
structure Client where
  Transport : Nat
deriving DecidableEq

/-- The struct `ServiceAccountTransport`; `Token` and `Transport` may be nil. -/
structure ServiceAccountTransport where
  Assertion : Nat
  Token : Option Token
  Transport : Option Nat
deriving DecidableEq

/-- The collaborators outside the package.  `Assert` and `RoundTrip` return Go
pairs (value, error), either component possibly nil. -/
structure World where
  Expired : Token → Bool
  Assert : Nat → Client → Option Token × Option String
  DefaultTransport : Nat
  RoundTrip : Nat → Heap → Nat → Option Nat × Option String

/-- A call made by the transport to a collaborator: `Assert` on an assertion
with a client, or `RoundTrip` of a base transport on a request object, together
with the heap as it is when the request is handed over. -/
inductive Event where
  | assert (assertion : Nat) (c : Client)
  | roundTrip (transport : Nat) (heap : Heap) (req : Nat)
deriving DecidableEq

/-- How a call of `RoundTrip` ends: it returns a (response, error) pair, or it
panics on a nil dereference. -/
inductive Result where
  | returned (resp : Option Nat) (err : Option String)
  | panicked
deriving DecidableEq

/-- Everything observable after a call of `RoundTrip`. -/
structure Outcome where
  result : Result
  t : ServiceAccountTransport
  heap : Heap
  trace : List Event
deriving DecidableEq

/-! ## Header maps and the heap -/

/-- An in-place update of the object at position `i` of a store. -/
def updateAt {α : Type} : List α → Nat → (α → α) → List α
  | [], _, _ => []
  | x :: xs, 0, f => f x :: xs
  | x :: xs, i + 1, f => x :: updateAt xs i f

/-- The map assignment `m[k] = v`. -/
def HeaderMap.assign : HeaderMap → String → Slice → HeaderMap
  | [], k, v => [(k, v)]
  | (k0, v0) :: rest, k, v =>
    if k0 = k then (k, v) :: rest else (k0, v0) :: HeaderMap.assign rest k v

/-- The map read `m[k]`. -/
def HeaderMap.lookup : HeaderMap → String → Option Slice
  | [], _ => none
  | (k0, v0) :: rest, k => if k0 = k then some v0 else HeaderMap.lookup rest k

/-- The builtin `delete(m, k)`. -/
def HeaderMap.delete : HeaderMap → String → HeaderMap
  | [], _ => []
  | (k0, v0) :: rest, k =>
    if k0 = k then HeaderMap.delete rest k else (k0, v0) :: HeaderMap.delete rest k

/-- The keys of a map. -/
def HeaderMap.keys (m : HeaderMap) : List String := m.map Prod.fst

/-- The expression `make(http.Header)`: a new empty map and its reference. -/
def Heap.makeHeader (h : Heap) : Nat × Heap :=
  (h.hdrs.length, { h with hdrs := h.hdrs ++ [[]] })

/-- A slice literal `[]string{...}`: a new backing array and the slice over it. -/
def Heap.newSlice (h : Heap) (xs : List String) : Slice × Heap :=
  (⟨h.arrs.length, xs.length⟩, { h with arrs := h.arrs ++ [xs] })

/-- The address `&r` of a request value that escapes: a new request object. -/
def Heap.newRequest (h : Heap) (r : Request) : Nat × Heap :=
  (h.reqs.length, { h with reqs := h.reqs ++ [r] })

/-- The entries of the map behind a header reference; a nil map has none, and
so has a reference to no object of the heap. -/
def Heap.entries (h : Heap) (hdr : Option Nat) : HeaderMap :=
  match hdr with
  | none => []
  | some m => (h.hdrs[m]?).getD []

/-- The statement `hdr[k] = v` on the map object `m`. -/
def Heap.assign (h : Heap) (m : Nat) (k : String) (v : Slice) : Heap :=
  { h with hdrs := updateAt h.hdrs m (fun e => HeaderMap.assign e k v) }

/-- The statement `delete(hdr, k)` on the map object `m`. -/
def Heap.delete (h : Heap) (m : Nat) (k : String) : Heap :=
  { h with hdrs := updateAt h.hdrs m (fun e => HeaderMap.delete e k) }

/-- The element write `s[i] = x` through a slice; an index outside the slice
writes nothing (the statement panics). -/
def Heap.setElem (h : Heap) (s : Slice) (i : Nat) (x : String) : Heap :=
  if i < s.len then { h with arrs := updateAt h.arrs s.arr (fun a => a.set i x) } else h

/-- The strings seen through a slice. -/
def Heap.values (h : Heap) (s : Slice) : List String :=
  ((h.arrs[s.arr]?).getD []).take s.len

/-! ## net/textproto canonical header keys -/

/-- The bytes allowed in a header field name (`validHeaderFieldByte`). -/
def validHeaderFieldByte (c : Char) : Bool :=
  c.isAlphanum || "!#$%&'*+-.^_`|~".data.contains c

/-- The canonicalising loop: upper case at the start and after a hyphen, lower
case elsewhere. -/
def canonicalLoop : Bool → List Char → List Char
  | _, [] => []
  | upper, c :: cs =>
    let c1 := if upper then c.toUpper else c.toLower
    c1 :: canonicalLoop (c1 = '-') cs

/-- The function `textproto.CanonicalMIMEHeaderKey`: a key holding a byte that
is not allowed in a field name is returned as it is. -/
def CanonicalMIMEHeaderKey (s : String) : String :=
  if s.data.all validHeaderFieldByte then String.mk (canonicalLoop true s.data) else s

/-- The method `http.Header.Set` on the map object `m`:
`h[CanonicalMIMEHeaderKey(key)] = []string{value}`. -/
def Heap.Set (h : Heap) (m : Nat) (key value : String) : Heap :=
  let (s, h1) := h.newSlice [value]
  h1.assign m (CanonicalMIMEHeaderKey key) s

/-- The method `http.Header.Del` on the map object `m`. -/
def Heap.Del (h : Heap) (m : Nat) (key : String) : Heap :=
  h.delete m (CanonicalMIMEHeaderKey key)

/-! ## The transport -/

/-- The method `transport`: the configured transport, or `http.DefaultTransport`
when none is configured. -/
def transport (w : World) (t : ServiceAccountTransport) : Nat :=
  match t.Transport with
  | some tr => tr
  | none => w.DefaultTransport

/-- The condition `t.Token == nil || t.Token.Expired()`. -/
def needsRefresh (w : World) (t : ServiceAccountTransport) : Bool :=
  match t.Token with
  | none => true
  | some tok => w.Expired tok

/-- The method `refreshToken`: the error returned, the transport afterwards and
the calls made. -/
def refreshToken (w : World) (t : ServiceAccountTransport) :
    Option String × ServiceAccountTransport × List Event :=
  if needsRefresh w t then
    let c : Client := { Transport := transport w t }
    match w.Assert t.Assertion c with
    | (_, some err) => (some err, t, [Event.assert t.Assertion c])
    | (token, none) => (none, { t with Token := token }, [Event.assert t.Assertion c])
  else
    (none, t, [])

/-- The loop `for k, v := range src { newReq.Header[k] = v }` over the entries
`src`, writing into the map object `m`.  The entries are visited in the order
of the list; the bindings of the map that results do not depend on it. -/
def copyHeader (h : Heap) (m : Nat) : HeaderMap → Heap
  | [] => h
  | (k, v) :: rest => copyHeader (h.assign m k v) m rest

/-- Lines 64 to 75 of `RoundTrip`, run once `refreshToken` has returned nil: the
request object `req` is copied, the three headers are set on the copy and the
copy is handed to the base transport.  `t1` is the transport as `refreshToken`
left it and `tr` the calls made so far. -/
def deliver (w : World) (t1 : ServiceAccountTransport) (h : Heap) (req : Nat)
    (tr : List Event) : Outcome :=
  match h.reqs[req]? with
  | none => ⟨Result.panicked, t1, h, tr⟩
  | some r =>
    let (m, h1) := h.makeHeader
    let newReq : Request := { r with Header := some m }
    let h2 := copyHeader h1 m (h1.entries r.Header)
    match t1.Token with
    | none => ⟨Result.panicked, t1, h2, tr⟩
    | some tok =>
      let h3 := h2.Set m "Authorization" ("Bearer " ++ tok.AccessToken)
      let h4 := h3.Set m "User-Agent" "gitkit-go-client/0.1"
      let h5 := h4.Set m "Content-Type" "application/json"
      let (p, h6) := h5.newRequest newReq
      let base := transport w t1
      match w.RoundTrip base h6 p with
      | (resp, err) => ⟨Result.returned resp err, t1, h6, tr ++ [Event.roundTrip base h6 p]⟩

/-- The method `RoundTrip`, on the request object `req`. -/
def RoundTrip (w : World) (t : ServiceAccountTransport) (h : Heap) (req : Nat) : Outcome :=
  match refreshToken w t with
  | (some err, t1, tr) => ⟨Result.returned none (some err), t1, h, tr⟩
  | (none, t1, tr) => deliver w t1 h req tr

/-! ## Observations -/

/-- The requests handed to a base transport, in order, each with the heap in
which the base transport is shown it. -/
def sent : List Event → List (Heap × Nat)
  | [] => []
  | Event.roundTrip _ H p :: es => (H, p) :: sent es
  | Event.assert _ _ :: es => sent es

/-- The calls of `Assert`, in order. -/
def asserts : List Event → List (Nat × Client)
  | [] => []
  | Event.assert a c :: es => (a, c) :: asserts es
  | Event.roundTrip _ _ _ :: es => asserts es

/-- The values a request object carries under the exact map key `k`. -/
def Heap.header (h : Heap) (p : Nat) (k : String) : Option (List String) :=
  match h.reqs[p]? with
  | none => none
  | some r => (HeaderMap.lookup (h.entries r.Header) k).map h.values

/-- What a caller sees of a request object: its method, URL, body and, key by
key, the strings of each value list. -/
def Heap.view (h : Heap) (p : Nat) :
    Option (String × String × Nat × List (String × List String)) :=
  (h.reqs[p]?).map fun r =>
    (r.Method, r.URL, r.Body, (h.entries r.Header).map fun kv => (kv.1, h.values kv.2))

/-- A request object whose header reference and value slices point into the
heap. -/
def Heap.validReq (h : Heap) (p : Nat) : Bool :=
  match h.reqs[p]? with
  | none => false
  | some r =>
    (match r.Header with
      | none => true
      | some m => decide (m < h.hdrs.length)) &&
    (h.entries r.Header).all fun kv => decide (kv.2.arr < h.arrs.length)

/-- Every object of `h` is an object of `h1`, at the same address and with the
same contents. -/
def Heap.Extends (h h1 : Heap) : Prop :=
  h.reqs <+: h1.reqs ∧ h.hdrs <+: h1.hdrs ∧ h.arrs <+: h1.arrs

/-- Two map keys spell the same header field name: field names are compared
without regard to case, so the keys agree once canonicalised. -/
def sameName (k name : String) : Bool :=
  decide (CanonicalMIMEHeaderKey k = CanonicalMIMEHeaderKey name)

/-- The values found in a header map for a field name, under every spelling of
the name, in map order. -/
def carriedIn (h : Heap) (name : String) : HeaderMap → List String
  | [] => []
  | (k, s) :: rest =>
    if sameName k name then h.values s ++ carriedIn h name rest else carriedIn h name rest

/-- The values a request object carries for a header field name. -/
def Heap.carried (h : Heap) (p : Nat) (name : String) : List String :=
  match h.reqs[p]? with
  | none => []
  | some r => carriedIn h name (h.entries r.Header)

/-- The credential step of `RoundTrip` succeeds with the token `tok`: either
`tok` is cached and not expired, or the cached token is nil or expired and
`Assert` returns `tok` with a nil error. -/
def CredentialStep (w : World) (t : ServiceAccountTransport) (tok : Token) : Prop :=
  (t.Token = some tok ∧ w.Expired tok = false) ∨
    ((t.Token = none ∨ ∃ old, t.Token = some old ∧ w.Expired old = true) ∧
      w.Assert t.Assertion ⟨transport w t⟩ = (some tok, none))

/-! ## The derived request in closed form -/

/-- The three header keys that `RoundTrip` sets. -/
def setKeys : List String := ["Authorization", "User-Agent", "Content-Type"]

/-- The map obtained from `acc` by assigning the entries of `src` in turn. -/
def HeaderMap.assignAll (acc : HeaderMap) : HeaderMap → HeaderMap
  | [] => acc
  | (k, v) :: rest => HeaderMap.assignAll (HeaderMap.assign acc k v) rest

/-- The header map of the derived request: the copied entries, then the three
assignments of `Set`, whose slices are over the arrays `n`, `n + 1`, `n + 2`. -/
def derivedMap (src : HeaderMap) (n : Nat) : HeaderMap :=
  HeaderMap.assign
    (HeaderMap.assign
      (HeaderMap.assign (HeaderMap.assignAll [] src) "Authorization" ⟨n, 1⟩)
      "User-Agent" ⟨n + 1, 1⟩)
    "Content-Type" ⟨n + 2, 1⟩

/-- The heap when the base transport is called: the old heap followed by the
derived request, its header map and the three new value arrays. -/
def derivedHeap (h : Heap) (r : Request) (tok : Token) : Heap :=
  { reqs := h.reqs ++ [{ r with Header := some h.hdrs.length }]
    hdrs := h.hdrs ++ [derivedMap (h.entries r.Header) h.arrs.length]
    arrs := h.arrs ++
      [["Bearer " ++ tok.AccessToken], ["gitkit-go-client/0.1"], ["application/json"]] }

/-! ## Concurrent calls

Several calls of `RoundTrip` on one transport, interleaved at their accesses to
the `Token` field.  The source takes no lock, so any call may take the next
step.  The collaborators may answer differently as time passes: the world in
force is a function of the number of collaborator calls made so far. -/

/-- Where a call of `RoundTrip` stands: about to evaluate the condition of line
48; about to call `Assert` (line 49); about to assign `t.Token` (line 53) the
token that `Assert` returned; about to run lines 64 to 75; returned. -/
inductive Pc where
  | check
  | fetch
  | store (token : Option Token)
  | send
  | done (res : Result)
deriving DecidableEq

/-- A call of `RoundTrip` in progress, on the request object `req`. -/
structure Call where
  req : Nat
  pc : Pc
deriving DecidableEq

/-- The transport shared by the calls, the heap, the collaborator calls made so
far and the calls in progress. -/
structure Sys where
  t : ServiceAccountTransport
  heap : Heap
  trace : List Event
  calls : List Call
deriving DecidableEq

/-- The next step of the call at position `i`; a returned or absent call does
nothing. -/
def step (ws : Nat → World) (s : Sys) (i : Nat) : Sys :=
  match s.calls[i]? with
  | none => s
  | some c =>
    let w := ws s.trace.length
    match c.pc with
    | Pc.check =>
      if needsRefresh w s.t then { s with calls := s.calls.set i { c with pc := Pc.fetch } }
      else { s with calls := s.calls.set i { c with pc := Pc.send } }
    | Pc.fetch =>
      let cl : Client := { Transport := transport w s.t }
      match w.Assert s.t.Assertion cl with
      | (_, some err) =>
        { s with
          trace := s.trace ++ [Event.assert s.t.Assertion cl]
          calls := s.calls.set i { c with pc := Pc.done (Result.returned none (some err)) } }
      | (token, none) =>
        { s with
          trace := s.trace ++ [Event.assert s.t.Assertion cl]
          calls := s.calls.set i { c with pc := Pc.store token } }
    | Pc.store token =>
      { s with
        t := { s.t with Token := token }
        calls := s.calls.set i { c with pc := Pc.send } }
    | Pc.send =>
      let o := deliver w s.t s.heap c.req s.trace
      { s with
        heap := o.heap
        trace := o.trace
        calls := s.calls.set i { c with pc := Pc.done o.result } }
    | Pc.done _ => s

/-- The state after the calls have taken steps in the order `sched`. -/
def run (ws : Nat → World) (s : Sys) : List Nat → Sys
  | [] => s
  | i :: rest => run ws (step ws s i) rest

/-- The state in which a call of `RoundTrip` has been started on each of the
request objects `reqs` and none has taken a step. -/
def start (t : ServiceAccountTransport) (h : Heap) (reqs : List Nat) : Sys :=
  { t := t, heap := h, trace := [], calls := reqs.map fun r => { req := r, pc := Pc.check } }

/-- A call is inside the check-then-fetch-then-store sequence: it has found the
token nil or expired and has not yet stored a new one. -/
def Pc.inSection : Pc → Bool
  | Pc.fetch => true
  | Pc.store _ => true
  | _ => false

/-- A call has returned. -/
def Pc.isDone : Pc → Bool
  | Pc.done _ => true
  | _ => false

/-- At most one call is inside the check-then-fetch-then-store sequence. -/
def Sys.exclusive (s : Sys) : Bool :=
  decide (s.calls.countP (fun c => c.pc.inSection) ≤ 1)

/-- Mutual exclusion holds in every state of the run of `sched` from `s`. -/
def exclusiveAlong (ws : Nat → World) (s : Sys) : List Nat → Bool
  | [] => s.exclusive
  | i :: rest => s.exclusive && exclusiveAlong ws (step ws s i) rest

/-- The number of steps a call may still take. -/
def Pc.rank : Pc → Nat
  | Pc.check => 4
  | Pc.fetch => 3
  | Pc.store _ => 2
  | Pc.send => 1
  | Pc.done _ => 0

/-- The three stages of a run in which the calls exclude each other: no token
fetched yet; the token `T`, which does not expire, fetched by one call and not
yet stored; `T` cached, every request handed over so far carrying it. -/
def Phase (ws : Nat → World) (T : Token) (s : Sys) : Prop :=
  (s.t.Token = none ∧ asserts s.trace = [] ∧ sent s.trace = [] ∧
      ∀ c ∈ s.calls, c.pc = Pc.check ∨ c.pc = Pc.fetch) ∨
    ((∀ m, (ws m).Expired T = false) ∧ s.t.Token = none ∧
      (asserts s.trace).length = 1 ∧ sent s.trace = [] ∧
      ∃ (i : Nat) (c : Call), s.calls[i]? = some c ∧ c.pc = Pc.store (some T) ∧
        ∀ (j : Nat) (d : Call), j ≠ i → s.calls[j]? = some d → d.pc = Pc.check) ∨
    ((∀ m, (ws m).Expired T = false) ∧ s.t.Token = some T ∧
      (asserts s.trace).length = 1 ∧
      (∀ Hp ∈ sent s.trace,
        Hp.1.header Hp.2 "Authorization" = some ["Bearer " ++ T.AccessToken]) ∧
      ∀ c ∈ s.calls, c.pc = Pc.check ∨ c.pc = Pc.send ∨ ∃ res, c.pc = Pc.done res)

/-- The invariant of a run in which the calls exclude each other and every
exchange issues a token that does not expire. -/
structure Serialised (ws : Nat → World) (s : Sys) : Prop where
  valid : ∀ c ∈ s.calls, c.req < s.heap.reqs.length
  counted : (sent s.trace).length = s.calls.countP (fun c => c.pc.isDone)
  returned : ∀ c ∈ s.calls, ∀ res, c.pc = Pc.done res →
    ∃ resp err, res = Result.returned resp err
  phase : ∃ T, Phase ws T s

/-! ## Example data -/

/-- A clock at instant 100 for `oauth.Token.Expired`, an exchanger that issues
the token `fresh`, and a base transport that answers with response 7. -/
def exampleWorld : World :=
  { Expired := fun tok => tok.Expiry != 0 && decide (tok.Expiry < 100)
    Assert := fun _ _ => (some ⟨"fresh", 0⟩, none)
    DefaultTransport := 0
    RoundTrip := fun _ _ _ => (some 7, none) }

/-- A world like `exampleWorld` whose exchanger fails. -/
def failingWorld : World :=
  { exampleWorld with Assert := fun _ _ => (none, some "invalid response: 401") }

/-- A world like `exampleWorld` whose base transport fails. -/
def brokenBaseWorld : World :=
  { exampleWorld with RoundTrip := fun _ _ _ => (none, some "dial tcp: timeout") }

/-- A world in which every exchange issues a new token: `first` on the first
call of `Assert`, `second` afterwards. -/
def racingWorld (n : Nat) : World :=
  { exampleWorld with
    Assert := fun _ _ => (some ⟨if n = 0 then "first" else "second", 0⟩, none) }

/-- A heap with one request, which carries `Content-Type: text/plain` under a
lower-case key and two values under `X-A`. -/
def exampleHeap : Heap :=
  { reqs := [⟨"POST", "https://www.googleapis.com/identitytoolkit", 0, some 0⟩]
    hdrs := [[("content-type", ⟨0, 1⟩), ("X-A", ⟨1, 2⟩)]]
    arrs := [["text/plain"], ["a", "b"]] }

/-- A heap with one request, which carries canonical `Content-Type` and
`Authorization` headers. -/
def canonicalHeap : Heap :=
  { reqs := [⟨"POST", "https://www.googleapis.com/identitytoolkit", 0, some 0⟩]
    hdrs := [[("Content-Type", ⟨0, 1⟩), ("Authorization", ⟨1, 1⟩), ("X-A", ⟨2, 2⟩)]]
    arrs := [["text/plain"], ["Basic abc"], ["a", "b"]] }

/-- A heap with one request whose header map is nil. -/
def bareHeap : Heap :=
  { reqs := [⟨"GET", "https://www.googleapis.com/identitytoolkit", 0, none⟩]
    hdrs := []
    arrs := [] }

/-- A heap with two requests without headers. -/
def twoRequests : Heap :=
  { reqs := [⟨"GET", "https://www.googleapis.com/identitytoolkit/a", 0, none⟩,
             ⟨"GET", "https://www.googleapis.com/identitytoolkit/b", 0, none⟩]
    hdrs := []
    arrs := [] }

/-- A transport with an unexpired cached token. -/
def validTransport : ServiceAccountTransport :=
  { Assertion := 1, Token := some ⟨"cached", 500⟩, Transport := some 3 }

/-- A transport with an expired cached token. -/
def expiredTransport : ServiceAccountTransport :=
  { Assertion := 1, Token := some ⟨"old", 50⟩, Transport := some 3 }

/-- A transport with no cached token and no configured base transport. -/
def emptyTransport : ServiceAccountTransport :=
  { Assertion := 1, Token := none, Transport := none }

/-- A transport configured with `http.DefaultTransport` itself, which is 0 in
`exampleWorld`. -/
def defaultConfigured : ServiceAccountTransport :=
  { Assertion := 1, Token := none, Transport := some 0 }

/-! ## Store lemmas -/

theorem updateAt_length {α : Type} (l : List α) (i : Nat) (f : α → α) :
    (updateAt l i f).length = l.length := by
  induction l generalizing i with
  | nil => rfl
  | cons x xs ih => cases i <;> simp [updateAt, ih]

theorem updateAt_append_fresh {α : Type} (l : List α) (x : α) (rest : List α) (f : α → α) :
    updateAt (l ++ x :: rest) l.length f = l ++ f x :: rest := by
  induction l with
  | nil => rfl
  | cons a l ih => simp [updateAt, ih]

theorem updateAt_getElem?_ne {α : Type} (l : List α) (i j : Nat) (f : α → α) (hij : i ≠ j) :
    (updateAt l i f)[j]? = l[j]? := by
  induction l generalizing i j with
  | nil => rfl
  | cons x xs ih =>
    cases i with
    | zero =>
      cases j with
      | zero => exact absurd rfl hij
      | succ j => simp [updateAt]
    | succ i =>
      cases j with
      | zero => simp [updateAt]
      | succ j => simpa [updateAt] using ih i j (fun h => hij (by omega))

theorem updateAt_getElem?_eq {α : Type} (l : List α) (i : Nat) (f : α → α) :
    (updateAt l i f)[i]? = (l[i]?).map f := by
  induction l generalizing i with
  | nil => rfl
  | cons x xs ih =>
    cases i with
    | zero => simp [updateAt]
    | succ i => simpa [updateAt] using ih i

/-! ## Header map lemmas -/

theorem HeaderMap.lookup_assign (m : HeaderMap) (k : String) (v : Slice) (k1 : String) :
    HeaderMap.lookup (HeaderMap.assign m k v) k1 =
      if k = k1 then some v else HeaderMap.lookup m k1 := by
  induction m with
  | nil => simp [HeaderMap.assign, HeaderMap.lookup]
  | cons e rest ih =>
    obtain ⟨k0, v0⟩ := e
    by_cases h0 : k0 = k <;> by_cases h1 : k = k1 <;> by_cases h2 : k0 = k1 <;>
      simp_all [HeaderMap.assign, HeaderMap.lookup]

theorem HeaderMap.mem_keys_assign (m : HeaderMap) (k : String) (v : Slice) (k1 : String) :
    k1 ∈ HeaderMap.keys (HeaderMap.assign m k v) ↔ k1 = k ∨ k1 ∈ HeaderMap.keys m := by
  induction m with
  | nil => simp [HeaderMap.assign, HeaderMap.keys]
  | cons e rest ih =>
    obtain ⟨k0, v0⟩ := e
    by_cases h0 : k0 = k
    · subst h0
      simp [HeaderMap.assign, HeaderMap.keys]
    · simp only [HeaderMap.keys] at ih
      simp [HeaderMap.assign, HeaderMap.keys, h0, ih]
      tauto

theorem HeaderMap.nodup_keys_assign (m : HeaderMap) (k : String) (v : Slice)
    (hm : (HeaderMap.keys m).Nodup) : (HeaderMap.keys (HeaderMap.assign m k v)).Nodup := by
  induction m with
  | nil => simp [HeaderMap.assign, HeaderMap.keys]
  | cons e rest ih =>
    obtain ⟨k0, v0⟩ := e
    have hm2 : k0 ∉ HeaderMap.keys rest ∧ (HeaderMap.keys rest).Nodup := by
      simpa [HeaderMap.keys] using hm
    by_cases h0 : k0 = k
    · subst h0
      simpa [HeaderMap.assign, HeaderMap.keys] using hm
    · have hk : k0 ∉ HeaderMap.keys (HeaderMap.assign rest k v) := by
        rw [HeaderMap.mem_keys_assign]
        rintro (h | h)
        · exact h0 h
        · exact hm2.1 h
      have := ih hm2.2
      simp only [HeaderMap.keys] at this hk
      simp [HeaderMap.assign, HeaderMap.keys, h0, this]
      simpa using hk

theorem HeaderMap.lookup_isSome_iff (m : HeaderMap) (k : String) :
    (HeaderMap.lookup m k).isSome ↔ k ∈ HeaderMap.keys m := by
  induction m with
  | nil => simp [HeaderMap.lookup, HeaderMap.keys]
  | cons e rest ih =>
    obtain ⟨k0, v0⟩ := e
    by_cases h0 : k0 = k
    · subst h0
      simp [HeaderMap.lookup, HeaderMap.keys]
    · have : ¬ k = k0 := fun h => h0 h.symm
      simp only [HeaderMap.keys] at ih
      simp [HeaderMap.lookup, HeaderMap.keys, h0, this, ih]

theorem HeaderMap.lookup_eq_none_of_not_mem (m : HeaderMap) (k : String)
    (hk : k ∉ HeaderMap.keys m) : HeaderMap.lookup m k = none := by
  have := (HeaderMap.lookup_isSome_iff m k).not.mpr hk
  simpa using this

theorem HeaderMap.lookup_assignAll (src acc : HeaderMap) (k : String)
    (hs : (HeaderMap.keys src).Nodup) :
    HeaderMap.lookup (HeaderMap.assignAll acc src) k =
      (HeaderMap.lookup src k).orElse (fun _ => HeaderMap.lookup acc k) := by
  induction src generalizing acc with
  | nil => simp [HeaderMap.assignAll, HeaderMap.lookup]
  | cons e rest ih =>
    obtain ⟨k0, v0⟩ := e
    have hs2 : k0 ∉ HeaderMap.keys rest ∧ (HeaderMap.keys rest).Nodup := by
      simpa [HeaderMap.keys] using hs
    rw [HeaderMap.assignAll, ih _ hs2.2, HeaderMap.lookup_assign]
    by_cases h0 : k0 = k
    · subst h0
      simp [HeaderMap.lookup, HeaderMap.lookup_eq_none_of_not_mem rest k0 hs2.1]
    · simp [HeaderMap.lookup, h0]

theorem HeaderMap.mem_keys_assignAll (src acc : HeaderMap) (k : String) :
    k ∈ HeaderMap.keys (HeaderMap.assignAll acc src) ↔
      k ∈ HeaderMap.keys acc ∨ k ∈ HeaderMap.keys src := by
  induction src generalizing acc with
  | nil => simp [HeaderMap.assignAll, HeaderMap.keys]
  | cons e rest ih =>
    obtain ⟨k0, v0⟩ := e
    rw [HeaderMap.assignAll, ih, HeaderMap.mem_keys_assign]
    simp [HeaderMap.keys]
    tauto

theorem HeaderMap.nodup_keys_assignAll (src acc : HeaderMap)
    (ha : (HeaderMap.keys acc).Nodup) : (HeaderMap.keys (HeaderMap.assignAll acc src)).Nodup := by
  induction src generalizing acc with
  | nil => simpa [HeaderMap.assignAll] using ha
  | cons e rest ih =>
    obtain ⟨k0, v0⟩ := e
    exact ih _ (HeaderMap.nodup_keys_assign acc k0 v0 ha)

/-! ## The heap built by `RoundTrip` -/

theorem copyHeader_fresh (R : List Request) (L : List HeaderMap) (A : List (List String))
    (e src : HeaderMap) :
    copyHeader ⟨R, L ++ [e], A⟩ L.length src = ⟨R, L ++ [HeaderMap.assignAll e src], A⟩ := by
  induction src generalizing e with
  | nil => rfl
  | cons kv rest ih =>
    obtain ⟨k, v⟩ := kv
    simp only [copyHeader, Heap.assign, HeaderMap.assignAll, updateAt_append_fresh]
    exact ih _

theorem Set_fresh (R : List Request) (L : List HeaderMap) (A : List (List String))
    (e : HeaderMap) (key value : String) :
    Heap.Set ⟨R, L ++ [e], A⟩ L.length key value =
      ⟨R, L ++ [HeaderMap.assign e (CanonicalMIMEHeaderKey key) ⟨A.length, 1⟩], A ++ [[value]]⟩ := by
  simp [Heap.Set, Heap.newSlice, Heap.assign, updateAt_append_fresh]

theorem entries_makeHeader (h : Heap) (hdr : Option Nat) :
    (h.makeHeader).2.entries hdr = h.entries hdr := by
  cases hdr with
  | none => rfl
  | some m =>
    simp only [Heap.entries, Heap.makeHeader]
    rcases Nat.lt_trichotomy m h.hdrs.length with hlt | heq | hgt
    · rw [List.getElem?_append_left hlt]
    · subst heq
      simp
    · rw [List.getElem?_eq_none (by simp; omega), List.getElem?_eq_none (by omega)]

theorem canonical_authorization : CanonicalMIMEHeaderKey "Authorization" = "Authorization" := by
  decide

theorem canonical_user_agent : CanonicalMIMEHeaderKey "User-Agent" = "User-Agent" := by
  decide

theorem canonical_content_type : CanonicalMIMEHeaderKey "Content-Type" = "Content-Type" := by
  decide

theorem deliver_eq (w : World) (t1 : ServiceAccountTransport) (h : Heap) (req : Nat)
    (tr : List Event) (r : Request) (tok : Token)
    (hreq : h.reqs[req]? = some r) (htok : t1.Token = some tok) :
    deliver w t1 h req tr =
      ⟨Result.returned (w.RoundTrip (transport w t1) (derivedHeap h r tok) h.reqs.length).1
          (w.RoundTrip (transport w t1) (derivedHeap h r tok) h.reqs.length).2,
        t1, derivedHeap h r tok,
        tr ++ [Event.roundTrip (transport w t1) (derivedHeap h r tok) h.reqs.length]⟩ := by
  obtain ⟨R, L, A⟩ := h
  simp only [deliver, hreq, htok]
  rw [entries_makeHeader]
  simp only [Heap.makeHeader, copyHeader_fresh, Set_fresh, canonical_authorization,
    canonical_user_agent, canonical_content_type, Heap.newRequest, derivedHeap, derivedMap]
  simp

theorem RoundTrip_eq (w : World) (t t1 : ServiceAccountTransport) (h : Heap) (req : Nat)
    (tr : List Event) (r : Request) (tok : Token)
    (hrefresh : refreshToken w t = (none, t1, tr)) (hreq : h.reqs[req]? = some r)
    (htok : t1.Token = some tok) :
    RoundTrip w t h req =
      ⟨Result.returned (w.RoundTrip (transport w t1) (derivedHeap h r tok) h.reqs.length).1
          (w.RoundTrip (transport w t1) (derivedHeap h r tok) h.reqs.length).2,
        t1, derivedHeap h r tok,
        tr ++ [Event.roundTrip (transport w t1) (derivedHeap h r tok) h.reqs.length]⟩ := by
  simp only [RoundTrip, hrefresh]
  exact deliver_eq w t1 h req tr r tok hreq htok

/-! ## The credential step -/

theorem needsRefresh_of_stale (w : World) (t : ServiceAccountTransport)
    (hstale : t.Token = none ∨ ∃ tok, t.Token = some tok ∧ w.Expired tok = true) :
    needsRefresh w t = true := by
  rcases hstale with h | ⟨tok, h, he⟩
  · simp [needsRefresh, h]
  · simp [needsRefresh, h, he]

theorem refreshToken_valid (w : World) (t : ServiceAccountTransport) (tok : Token)
    (htok : t.Token = some tok) (hfresh : w.Expired tok = false) :
    refreshToken w t = (none, t, []) := by
  simp [refreshToken, needsRefresh, htok, hfresh]

theorem refreshToken_error (w : World) (t : ServiceAccountTransport) (e : String)
    (hneed : needsRefresh w t = true)
    (herr : (w.Assert t.Assertion ⟨transport w t⟩).2 = some e) :
    refreshToken w t = (some e, t, [Event.assert t.Assertion ⟨transport w t⟩]) := by
  rcases hA : w.Assert t.Assertion ⟨transport w t⟩ with ⟨tk, er⟩
  rw [hA] at herr
  simp only at herr
  subst herr
  simp [refreshToken, hneed, hA]

theorem refreshToken_fetch (w : World) (t : ServiceAccountTransport) (tk : Option Token)
    (hneed : needsRefresh w t = true)
    (hok : w.Assert t.Assertion ⟨transport w t⟩ = (tk, none)) :
    refreshToken w t =
      (none, { t with Token := tk }, [Event.assert t.Assertion ⟨transport w t⟩]) := by
  simp [refreshToken, hneed, hok]

theorem refreshToken_of_credentialStep (w : World) (t : ServiceAccountTransport) (tok : Token)
    (hcred : CredentialStep w t tok) :
    ∃ t1 tr, refreshToken w t = (none, t1, tr) ∧ t1.Token = some tok ∧
      transport w t1 = transport w t ∧ sent tr = [] := by
  rcases hcred with ⟨htok, hfresh⟩ | ⟨hstale, hok⟩
  · exact ⟨t, [], refreshToken_valid w t tok htok hfresh, htok, rfl, rfl⟩
  · exact ⟨_, _, refreshToken_fetch w t (some tok) (needsRefresh_of_stale w t hstale) hok,
      rfl, rfl, rfl⟩

theorem sent_append (a b : List Event) : sent (a ++ b) = sent a ++ sent b := by
  induction a with
  | nil => rfl
  | cons x xs ih => cases x <;> simp [sent, ih]

theorem asserts_append (a b : List Event) : asserts (a ++ b) = asserts a ++ asserts b := by
  induction a with
  | nil => rfl
  | cons x xs ih => cases x <;> simp [asserts, ih]

theorem RoundTrip_of_credentialStep (w : World) (t : ServiceAccountTransport) (h : Heap)
    (req : Nat) (tok : Token) (r : Request)
    (hcred : CredentialStep w t tok) (hreq : h.reqs[req]? = some r) :
    (RoundTrip w t h req).heap = derivedHeap h r tok ∧
      sent (RoundTrip w t h req).trace = [(derivedHeap h r tok, h.reqs.length)] ∧
      (RoundTrip w t h req).result =
        Result.returned (w.RoundTrip (transport w t) (derivedHeap h r tok) h.reqs.length).1
          (w.RoundTrip (transport w t) (derivedHeap h r tok) h.reqs.length).2 := by
  obtain ⟨t1, tr, hrefresh, htok, htr, hsent⟩ := refreshToken_of_credentialStep w t tok hcred
  rw [RoundTrip_eq w t t1 h req tr r tok hrefresh hreq htok, htr]
  exact ⟨rfl, by simp [sent_append, hsent, sent], rfl⟩

/-! ## Reading the derived request -/

theorem lookup_derivedMap (src : HeaderMap) (n : Nat) (k : String) :
    HeaderMap.lookup (derivedMap src n) k =
      if "Content-Type" = k then some ⟨n + 2, 1⟩
      else if "User-Agent" = k then some ⟨n + 1, 1⟩
      else if "Authorization" = k then some ⟨n, 1⟩
      else HeaderMap.lookup (HeaderMap.assignAll [] src) k := by
  simp only [derivedMap, HeaderMap.lookup_assign]

theorem derivedHeap_req (h : Heap) (r : Request) (tok : Token) :
    (derivedHeap h r tok).reqs[h.reqs.length]? = some { r with Header := some h.hdrs.length } := by
  simp [derivedHeap]

theorem derivedHeap_entries (h : Heap) (r : Request) (tok : Token) :
    (derivedHeap h r tok).entries (some h.hdrs.length) =
      derivedMap (h.entries r.Header) h.arrs.length := by
  simp [derivedHeap, Heap.entries]

theorem derivedHeap_values (h : Heap) (r : Request) (tok : Token) :
    (derivedHeap h r tok).values ⟨h.arrs.length, 1⟩ = ["Bearer " ++ tok.AccessToken] ∧
      (derivedHeap h r tok).values ⟨h.arrs.length + 1, 1⟩ = ["gitkit-go-client/0.1"] ∧
      (derivedHeap h r tok).values ⟨h.arrs.length + 2, 1⟩ = ["application/json"] := by
  have h0 : (h.arrs ++ [["Bearer " ++ tok.AccessToken], ["gitkit-go-client/0.1"],
      ["application/json"]])[h.arrs.length]? = some ["Bearer " ++ tok.AccessToken] := by
    rw [List.getElem?_append_right (Nat.le_refl _)]
    simp
  have h1 : (h.arrs ++ [["Bearer " ++ tok.AccessToken], ["gitkit-go-client/0.1"],
      ["application/json"]])[h.arrs.length + 1]? = some ["gitkit-go-client/0.1"] := by
    rw [List.getElem?_append_right (Nat.le_add_right _ _)]
    simp
  have h2 : (h.arrs ++ [["Bearer " ++ tok.AccessToken], ["gitkit-go-client/0.1"],
      ["application/json"]])[h.arrs.length + 2]? = some ["application/json"] := by
    rw [List.getElem?_append_right (Nat.le_add_right _ _)]
    simp
  simp only [derivedHeap, Heap.values, h0, h1, h2]
  simp

theorem derivedHeap_header_set (h : Heap) (r : Request) (tok : Token) :
    (derivedHeap h r tok).header h.reqs.length "Authorization" =
        some ["Bearer " ++ tok.AccessToken] ∧
      (derivedHeap h r tok).header h.reqs.length "User-Agent" =
        some ["gitkit-go-client/0.1"] ∧
      (derivedHeap h r tok).header h.reqs.length "Content-Type" =
        some ["application/json"] := by
  have hv := derivedHeap_values h r tok
  simp only [Heap.header, derivedHeap_req, derivedHeap_entries, lookup_derivedMap]
  refine ⟨?_, ?_, ?_⟩
  · simpa using hv.1
  · simpa using hv.2.1
  · simpa using hv.2.2

/-! ## Frame lemmas -/

theorem prefix_getElem? {α : Type} {l l1 : List α} (hp : l <+: l1) (i : Nat)
    (hi : i < l.length) : l1[i]? = l[i]? := by
  obtain ⟨rest, rfl⟩ := hp
  exact List.getElem?_append_left hi

theorem Heap.Extends.refl (h : Heap) : Heap.Extends h h :=
  ⟨List.prefix_refl _, List.prefix_refl _, List.prefix_refl _⟩

theorem derivedHeap_extends (h : Heap) (r : Request) (tok : Token) :
    Heap.Extends h (derivedHeap h r tok) :=
  ⟨List.prefix_append _ _, List.prefix_append _ _, List.prefix_append _ _⟩

theorem RoundTrip_extends (w : World) (t : ServiceAccountTransport) (h : Heap) (req : Nat) :
    Heap.Extends h (RoundTrip w t h req).heap := by
  rcases hr : refreshToken w t with ⟨err, t1, tr⟩
  cases err with
  | some e =>
    simp only [RoundTrip, hr]
    exact Heap.Extends.refl h
  | none =>
    cases hreq : h.reqs[req]? with
    | none =>
      simp only [RoundTrip, deliver, hr, hreq]
      exact Heap.Extends.refl h
    | some r =>
      cases htok : t1.Token with
      | none =>
        obtain ⟨R, L, A⟩ := h
        simp only [RoundTrip, deliver, hr, hreq, htok, Heap.makeHeader, copyHeader_fresh]
        exact ⟨List.prefix_refl _, List.prefix_append _ _, List.prefix_refl _⟩
      | some tok =>
        rw [RoundTrip_eq w t t1 h req tr r tok hr hreq htok]
        exact derivedHeap_extends h r tok

theorem validReq_elim (h : Heap) (p : Nat) (r : Request) (hv : h.validReq p = true)
    (hreq : h.reqs[p]? = some r) :
    (∀ m, r.Header = some m → m < h.hdrs.length) ∧
      ∀ kv ∈ h.entries r.Header, kv.2.arr < h.arrs.length := by
  simp only [Heap.validReq, hreq, Bool.and_eq_true, List.all_eq_true, decide_eq_true_eq] at hv
  refine ⟨?_, hv.2⟩
  intro m hm
  have h1 := hv.1
  rw [hm] at h1
  simpa using h1

theorem validReq_isSome (h : Heap) (p : Nat) (hv : h.validReq p = true) :
    ∃ r, h.reqs[p]? = some r := by
  cases hreq : h.reqs[p]? with
  | none => simp [Heap.validReq, hreq] at hv
  | some r => exact ⟨r, rfl⟩

theorem values_of_extends (h h1 : Heap) (s : Slice) (he : Heap.Extends h h1)
    (hs : s.arr < h.arrs.length) : h1.values s = h.values s := by
  simp only [Heap.values, prefix_getElem? he.2.2 s.arr hs]

theorem entries_of_extends (h h1 : Heap) (hdr : Option Nat) (he : Heap.Extends h h1)
    (hm : ∀ m, hdr = some m → m < h.hdrs.length) : h1.entries hdr = h.entries hdr := by
  cases hdr with
  | none => rfl
  | some m => simp only [Heap.entries, prefix_getElem? he.2.1 m (hm m rfl)]

theorem view_of_extends (h h1 : Heap) (p : Nat) (he : Heap.Extends h h1)
    (hv : h.validReq p = true) : h1.view p = h.view p := by
  obtain ⟨r, hreq⟩ := validReq_isSome h p hv
  obtain ⟨hm, ha⟩ := validReq_elim h p r hv hreq
  have hlt : p < h.reqs.length := by
    rcases Nat.lt_or_ge p h.reqs.length with hlt | hge
    · exact hlt
    · rw [List.getElem?_eq_none hge] at hreq
      cases hreq
  have hreq1 : h1.reqs[p]? = some r := by rw [prefix_getElem? he.1 p hlt, hreq]
  simp only [Heap.view, hreq, hreq1, Option.map_some', entries_of_extends h h1 r.Header he hm]
  congr 4
  apply List.map_congr_left
  intro kv hkv
  rw [values_of_extends h h1 kv.2 he (ha kv hkv)]

theorem HeaderMap.mem_of_lookup (m : HeaderMap) (k : String) (s : Slice)
    (hl : HeaderMap.lookup m k = some s) : (k, s) ∈ m := by
  induction m with
  | nil => simp [HeaderMap.lookup] at hl
  | cons e rest ih =>
    obtain ⟨k0, v0⟩ := e
    by_cases h0 : k0 = k
    · subst h0
      simp only [HeaderMap.lookup, if_true, Option.some.injEq] at hl
      subst hl
      exact List.mem_cons_self _ _
    · simp only [HeaderMap.lookup, h0, if_false] at hl
      exact List.mem_cons_of_mem _ (ih hl)

theorem header_eq_of_extends (h h1 : Heap) (p : Nat) (k : String) (he : Heap.Extends h h1)
    (hv : h.validReq p = true) : h1.header p k = h.header p k := by
  obtain ⟨r, hreq⟩ := validReq_isSome h p hv
  obtain ⟨hm, ha⟩ := validReq_elim h p r hv hreq
  have hlt : p < h.reqs.length := by
    rcases Nat.lt_or_ge p h.reqs.length with hlt | hge
    · exact hlt
    · rw [List.getElem?_eq_none hge] at hreq
      cases hreq
  have hreq1 : h1.reqs[p]? = some r := by rw [prefix_getElem? he.1 p hlt, hreq]
  simp only [Heap.header, hreq, hreq1, entries_of_extends h h1 r.Header he hm]
  cases hl : HeaderMap.lookup (h.entries r.Header) k with
  | none => rfl
  | some s =>
    have hmem := HeaderMap.mem_of_lookup _ k s hl
    simp only [Option.map_some', values_of_extends h h1 s he (ha (k, s) hmem)]

/-! ## The shape of the derived header map -/

theorem lookup_assignAll_nil (src : HeaderMap) (k : String)
    (hs : (HeaderMap.keys src).Nodup) :
    HeaderMap.lookup (HeaderMap.assignAll [] src) k = HeaderMap.lookup src k := by
  rw [HeaderMap.lookup_assignAll src [] k hs]
  cases HeaderMap.lookup src k <;> simp [HeaderMap.lookup]

theorem lookup_derivedMap_other (src : HeaderMap) (n : Nat) (k : String)
    (hs : (HeaderMap.keys src).Nodup) (hk : k ∉ setKeys) :
    HeaderMap.lookup (derivedMap src n) k = HeaderMap.lookup src k := by
  have h1 : ¬ "Content-Type" = k := fun h => hk (by simp [setKeys, ← h])
  have h2 : ¬ "User-Agent" = k := fun h => hk (by simp [setKeys, ← h])
  have h3 : ¬ "Authorization" = k := fun h => hk (by simp [setKeys, ← h])
  rw [lookup_derivedMap, if_neg h1, if_neg h2, if_neg h3, lookup_assignAll_nil src k hs]

theorem mem_keys_derivedMap (src : HeaderMap) (n : Nat) (k : String) :
    k ∈ HeaderMap.keys (derivedMap src n) ↔ k ∈ HeaderMap.keys src ∨ k ∈ setKeys := by
  simp only [derivedMap, HeaderMap.mem_keys_assign, HeaderMap.mem_keys_assignAll, setKeys,
    List.mem_cons, List.mem_singleton]
  simp only [HeaderMap.keys, List.map_nil, List.not_mem_nil, false_or, List.mem_nil_iff, or_false]
  tauto

theorem nodup_keys_derivedMap (src : HeaderMap) (n : Nat) :
    (HeaderMap.keys (derivedMap src n)).Nodup := by
  unfold derivedMap
  apply HeaderMap.nodup_keys_assign
  apply HeaderMap.nodup_keys_assign
  apply HeaderMap.nodup_keys_assign
  apply HeaderMap.nodup_keys_assignAll
  simp [HeaderMap.keys]

theorem derivedHeap_header_other (h : Heap) (req : Nat) (r : Request) (tok : Token) (k : String)
    (hreq : h.reqs[req]? = some r) (hvalid : h.validReq req = true)
    (hkeys : (HeaderMap.keys (h.entries r.Header)).Nodup) (hk : k ∉ setKeys) :
    (derivedHeap h r tok).header h.reqs.length k = h.header req k := by
  simp only [Heap.header, derivedHeap_req, derivedHeap_entries, hreq,
    lookup_derivedMap_other _ _ k hkeys hk]
  cases hl : HeaderMap.lookup (h.entries r.Header) k with
  | none => rfl
  | some s =>
    have hmem := HeaderMap.mem_of_lookup _ k s hl
    have hs := (validReq_elim h req r hvalid hreq).2 (k, s) hmem
    simp only [Option.map_some', values_of_extends h _ s (derivedHeap_extends h r tok) hs]

/-! ## The order of iteration

Go leaves the order in which `range` visits a map open.  The map built by the
copy loop binds every key to the same slice whatever the order. -/

theorem HeaderMap.lookup_eq_some_iff (m : HeaderMap) (k : String) (s : Slice)
    (hn : (HeaderMap.keys m).Nodup) : HeaderMap.lookup m k = some s ↔ (k, s) ∈ m := by
  constructor
  · exact HeaderMap.mem_of_lookup m k s
  · intro hmem
    induction m with
    | nil => cases hmem
    | cons e rest ih =>
      obtain ⟨k0, v0⟩ := e
      have hn2 : k0 ∉ HeaderMap.keys rest ∧ (HeaderMap.keys rest).Nodup := by
        simpa [HeaderMap.keys] using hn
      rcases List.mem_cons.mp hmem with heq | hrest
      · cases heq
        simp [HeaderMap.lookup]
      · have hk : k ∈ HeaderMap.keys rest := List.mem_map.mpr ⟨(k, s), hrest, rfl⟩
        have hne : ¬ k0 = k := fun h => hn2.1 (by rw [h]; exact hk)
        simp only [HeaderMap.lookup, hne, if_false]
        exact ih hn2.2 hrest

theorem HeaderMap.lookup_perm (m m1 : HeaderMap) (k : String) (hp : m1.Perm m)
    (hn : (HeaderMap.keys m).Nodup) : HeaderMap.lookup m1 k = HeaderMap.lookup m k := by
  have hn1 : (HeaderMap.keys m1).Nodup := (hp.map Prod.fst).nodup_iff.mpr hn
  apply Option.ext
  intro s
  simp only [Option.mem_def, HeaderMap.lookup_eq_some_iff m1 k s hn1,
    HeaderMap.lookup_eq_some_iff m k s hn]
  exact hp.mem_iff

theorem lookup_derivedMap_perm (src src1 : HeaderMap) (n : Nat) (k : String)
    (hp : src1.Perm src) (hn : (HeaderMap.keys src).Nodup) :
    HeaderMap.lookup (derivedMap src1 n) k = HeaderMap.lookup (derivedMap src n) k := by
  have hn1 : (HeaderMap.keys src1).Nodup := (hp.map Prod.fst).nodup_iff.mpr hn
  rw [lookup_derivedMap, lookup_derivedMap, lookup_assignAll_nil src1 k hn1,
    lookup_assignAll_nil src k hn, HeaderMap.lookup_perm src src1 k hp hn]

/-! ## Writes after the call -/

theorem updateAt_prefix {α : Type} (l l1 : List α) (i : Nat) (f : α → α) (hp : l <+: l1)
    (hi : l.length ≤ i) : l <+: updateAt l1 i f := by
  obtain ⟨rest, rfl⟩ := hp
  induction l generalizing i with
  | nil => exact List.nil_prefix
  | cons x xs ih =>
    cases i with
    | zero => simp at hi
    | succ i =>
      simp only [List.cons_append, updateAt]
      exact (List.prefix_cons_inj x).mpr (ih i (by simpa using hi))

theorem extends_assign (h h1 : Heap) (m : Nat) (k : String) (v : Slice)
    (he : Heap.Extends h h1) (hm : h.hdrs.length ≤ m) : Heap.Extends h (h1.assign m k v) :=
  ⟨he.1, updateAt_prefix _ _ m _ he.2.1 hm, he.2.2⟩

theorem extends_delete (h h1 : Heap) (m : Nat) (k : String)
    (he : Heap.Extends h h1) (hm : h.hdrs.length ≤ m) : Heap.Extends h (h1.delete m k) :=
  ⟨he.1, updateAt_prefix _ _ m _ he.2.1 hm, he.2.2⟩

theorem extends_Set (h h1 : Heap) (m : Nat) (key value : String)
    (he : Heap.Extends h h1) (hm : h.hdrs.length ≤ m) : Heap.Extends h (h1.Set m key value) := by
  refine ⟨he.1, updateAt_prefix _ _ m _ he.2.1 hm, ?_⟩
  exact he.2.2.trans (List.prefix_append _ _)

theorem entries_assign_ne (h : Heap) (m d : Nat) (k : String) (v : Slice) (hne : m ≠ d) :
    (h.assign m k v).entries (some d) = h.entries (some d) := by
  simp only [Heap.entries, Heap.assign, updateAt_getElem?_ne _ m d _ hne]

theorem entries_delete_ne (h : Heap) (m d : Nat) (k : String) (hne : m ≠ d) :
    (h.delete m k).entries (some d) = h.entries (some d) := by
  simp only [Heap.entries, Heap.delete, updateAt_getElem?_ne _ m d _ hne]

theorem entries_assign_other (h : Heap) (m : Nat) (k : String) (v : Slice) (hdr : Option Nat)
    (hne : hdr ≠ some m) : (h.assign m k v).entries hdr = h.entries hdr := by
  cases hdr with
  | none => rfl
  | some d => exact entries_assign_ne h m d k v (fun hmd => hne (by rw [hmd]))

theorem entries_delete_other (h : Heap) (m : Nat) (k : String) (hdr : Option Nat)
    (hne : hdr ≠ some m) : (h.delete m k).entries hdr = h.entries hdr := by
  cases hdr with
  | none => rfl
  | some d => exact entries_delete_ne h m d k (fun hmd => hne (by rw [hmd]))

theorem view_assign_other (h : Heap) (p m : Nat) (k : String) (v : Slice) (r : Request)
    (hreq : h.reqs[p]? = some r) (hne : r.Header ≠ some m) :
    (h.assign m k v).view p = h.view p := by
  have hreq1 : (h.assign m k v).reqs[p]? = some r := hreq
  simp only [Heap.view, hreq, hreq1, Option.map_some', entries_assign_other h m k v _ hne]
  rfl

theorem view_delete_other (h : Heap) (p m : Nat) (k : String) (r : Request)
    (hreq : h.reqs[p]? = some r) (hne : r.Header ≠ some m) :
    (h.delete m k).view p = h.view p := by
  have hreq1 : (h.delete m k).reqs[p]? = some r := hreq
  simp only [Heap.view, hreq, hreq1, Option.map_some', entries_delete_other h m k _ hne]
  rfl

/-! ## The calls made -/

theorem refreshToken_shape (w : World) (t : ServiceAccountTransport) :
    (refreshToken w t).2.1.Transport = t.Transport ∧
      (refreshToken w t).2.1.Assertion = t.Assertion ∧
      ((refreshToken w t).2.2 = [] ∨
        (refreshToken w t).2.2 = [Event.assert t.Assertion ⟨transport w t⟩]) := by
  unfold refreshToken
  by_cases hn : needsRefresh w t = true
  · rw [if_pos hn]
    rcases hA : w.Assert t.Assertion ⟨transport w t⟩ with ⟨tk, er⟩
    cases er <;> simp [hA]
  · rw [if_neg hn]
    simp

theorem refreshToken_trace (w : World) (t : ServiceAccountTransport) :
    (refreshToken w t).2.2 =
      if needsRefresh w t = true then [Event.assert t.Assertion ⟨transport w t⟩] else [] := by
  unfold refreshToken
  by_cases hn : needsRefresh w t = true
  · rw [if_pos hn, if_pos hn]
    rcases hA : w.Assert t.Assertion ⟨transport w t⟩ with ⟨tk, er⟩
    cases er <;> simp [hA]
  · rw [if_neg hn, if_neg hn]

theorem RoundTrip_shape (w : World) (t : ServiceAccountTransport) (h : Heap) (req : Nat) :
    (RoundTrip w t h req).t = (refreshToken w t).2.1 ∧
      ((RoundTrip w t h req).trace = (refreshToken w t).2.2 ∨
        (RoundTrip w t h req).trace =
          (refreshToken w t).2.2 ++
            [Event.roundTrip (transport w t) (RoundTrip w t h req).heap h.reqs.length]) := by
  have hsh := refreshToken_shape w t
  rcases hr : refreshToken w t with ⟨err, t1, tr⟩
  rw [hr] at hsh
  cases err with
  | some e => simp [RoundTrip, hr]
  | none =>
    cases hreq : h.reqs[req]? with
    | none => simp [RoundTrip, deliver, hr, hreq]
    | some r =>
      cases htok : t1.Token with
      | none => simp [RoundTrip, deliver, hr, hreq, htok]
      | some tok =>
        rw [RoundTrip_eq w t t1 h req tr r tok hr hreq htok]
        have h1 : t1.Transport = t.Transport := hsh.1
        have ht : transport w t1 = transport w t := by
          simp only [transport, h1]
        simp [ht]

/-! ## Interleaved calls -/

theorem header_of_extends (h h1 : Heap) (p : Nat) (k : String) (x : String) (xs : List String)
    (he : Heap.Extends h h1) (hx : h.header p k = some (x :: xs)) :
    h1.header p k = some (x :: xs) := by
  unfold Heap.header at hx
  cases hreq : h.reqs[p]? with
  | none => simp [hreq] at hx
  | some r =>
    rw [hreq] at hx
    simp only at hx
    have hlt : p < h.reqs.length := by
      rcases Nat.lt_or_ge p h.reqs.length with hlt | hge
      · exact hlt
      · rw [List.getElem?_eq_none hge] at hreq
        cases hreq
    have hreq1 : h1.reqs[p]? = some r := by rw [prefix_getElem? he.1 p hlt, hreq]
    cases hl : HeaderMap.lookup (h.entries r.Header) k with
    | none => simp [hl] at hx
    | some s =>
      rw [hl] at hx
      simp only [Option.map_some', Option.some.injEq] at hx
      have hent : h1.entries r.Header = h.entries r.Header := by
        cases hH : r.Header with
        | none => rfl
        | some m =>
          rw [hH] at hl
          simp only [Heap.entries] at hl ⊢
          rcases Nat.lt_or_ge m h.hdrs.length with hm | hm
          · rw [prefix_getElem? he.2.1 m hm]
          · rw [List.getElem?_eq_none hm] at hl
            simp [HeaderMap.lookup] at hl
      have harr : s.arr < h.arrs.length := by
        rcases Nat.lt_or_ge s.arr h.arrs.length with ha | ha
        · exact ha
        · simp [Heap.values, List.getElem?_eq_none ha] at hx
      simp only [Heap.header, hreq1, hent, hl, Option.map_some',
        values_of_extends h h1 s he harr, hx]

theorem countP_set {α : Type} (p : α → Bool) (l : List α) (i : Nat) (c c1 : α)
    (hc : l[i]? = some c) :
    (l.set i c1).countP p + (if p c = true then 1 else 0) =
      l.countP p + (if p c1 = true then 1 else 0) := by
  induction l generalizing i with
  | nil => simp at hc
  | cons x xs ih =>
    cases i with
    | zero =>
      simp only [List.getElem?_cons_zero, Option.some.injEq] at hc
      subst hc
      simp only [List.set_cons_zero, List.countP_cons]
      omega
    | succ i =>
      simp only [List.getElem?_cons_succ] at hc
      have := ih i hc
      simp only [List.set_cons_succ, List.countP_cons]
      omega

theorem countP_two {α : Type} (p : α → Bool) (l : List α) (i j : Nat) (c d : α)
    (hij : i ≠ j) (hc : l[i]? = some c) (hd : l[j]? = some d)
    (hpc : p c = true) (hpd : p d = true) : 2 ≤ l.countP p := by
  induction l generalizing i j with
  | nil => simp at hc
  | cons x xs ih =>
    have hpos : ∀ (n : Nat) (e : α), xs[n]? = some e → p e = true → 0 < xs.countP p := by
      intro n e hn he
      exact List.countP_pos_iff.mpr ⟨e, List.mem_iff_getElem?.mpr ⟨n, hn⟩, he⟩
    cases i with
    | zero =>
      cases j with
      | zero => exact absurd rfl hij
      | succ j =>
        simp only [List.getElem?_cons_zero, Option.some.injEq] at hc
        subst hc
        simp only [List.getElem?_cons_succ] at hd
        have := hpos j d hd hpd
        simp only [List.countP_cons, hpc, if_true]
        omega
    | succ i =>
      cases j with
      | zero =>
        simp only [List.getElem?_cons_zero, Option.some.injEq] at hd
        subst hd
        simp only [List.getElem?_cons_succ] at hc
        have := hpos i c hc hpc
        simp only [List.countP_cons, hpd, if_true]
        omega
      | succ j =>
        simp only [List.getElem?_cons_succ] at hc hd
        have := ih i j (fun h => hij (by rw [h])) hc hd
        simp only [List.countP_cons]
        omega

theorem not_exclusive_of_two (s : Sys) (i j : Nat) (c d : Call) (hij : i ≠ j)
    (hc : s.calls[i]? = some c) (hd : s.calls[j]? = some d)
    (hpc : c.pc.inSection = true) (hpd : d.pc.inSection = true) : s.exclusive = false := by
  have := countP_two (fun c : Call => c.pc.inSection) s.calls i j c d hij hc hd hpc hpd
  simp only [Sys.exclusive, decide_eq_false_iff_not]
  omega

theorem serialised_quiet (ws : Nat → World) (s s1 : Sys) (i : Nat) (c c1 : Call)
    (hinv : Serialised ws s) (hci : s.calls[i]? = some c)
    (hheap : s1.heap = s.heap) (hsent : sent s1.trace = sent s.trace)
    (hcalls : s1.calls = s.calls.set i c1) (hreq : c1.req = c.req)
    (hd : c.pc.isDone = false) (hd1 : c1.pc.isDone = false)
    (hphase : ∃ T, Phase ws T s1) : Serialised ws s1 := by
  have hcmem : c ∈ s.calls := List.mem_iff_getElem?.mpr ⟨i, hci⟩
  refine ⟨?_, ?_, ?_, hphase⟩
  · intro x hx
    rw [hcalls] at hx
    rw [hheap]
    rcases List.mem_or_eq_of_mem_set hx with hx | hx
    · exact hinv.valid x hx
    · rw [hx, hreq]
      exact hinv.valid c hcmem
  · rw [hsent, hcalls, hinv.counted]
    have := countP_set (fun c : Call => c.pc.isDone) s.calls i c c1 hci
    simp only [hd, hd1] at this
    simpa using this.symm
  · intro x hx res hres
    rw [hcalls] at hx
    rcases List.mem_or_eq_of_mem_set hx with hx | hx
    · exact hinv.returned x hx res hres
    · rw [hx] at hres
      rw [hres] at hd1
      cases hd1

theorem step_absent (ws : Nat → World) (s : Sys) (i : Nat) (hci : s.calls[i]? = none) :
    step ws s i = s := by
  simp [step, hci]

theorem step_done (ws : Nat → World) (s : Sys) (i : Nat) (req : Nat) (res : Result)
    (hci : s.calls[i]? = some ⟨req, Pc.done res⟩) : step ws s i = s := by
  simp [step, hci]

theorem step_check_stale (ws : Nat → World) (s : Sys) (i : Nat) (req : Nat)
    (hci : s.calls[i]? = some ⟨req, Pc.check⟩)
    (hn : needsRefresh (ws s.trace.length) s.t = true) :
    step ws s i = { s with calls := s.calls.set i ⟨req, Pc.fetch⟩ } := by
  simp [step, hci, hn]

theorem step_check_valid (ws : Nat → World) (s : Sys) (i : Nat) (req : Nat)
    (hci : s.calls[i]? = some ⟨req, Pc.check⟩)
    (hn : needsRefresh (ws s.trace.length) s.t = false) :
    step ws s i = { s with calls := s.calls.set i ⟨req, Pc.send⟩ } := by
  simp [step, hci, hn]

theorem step_fetch_ok (ws : Nat → World) (s : Sys) (i : Nat) (req : Nat) (tk : Option Token)
    (hci : s.calls[i]? = some ⟨req, Pc.fetch⟩)
    (hok : (ws s.trace.length).Assert s.t.Assertion ⟨transport (ws s.trace.length) s.t⟩ =
      (tk, none)) :
    step ws s i =
      { s with
        trace := s.trace ++
          [Event.assert s.t.Assertion ⟨transport (ws s.trace.length) s.t⟩]
        calls := s.calls.set i ⟨req, Pc.store tk⟩ } := by
  simp [step, hci, hok]

theorem step_fetch_error (ws : Nat → World) (s : Sys) (i : Nat) (req : Nat)
    (tk : Option Token) (e : String)
    (hci : s.calls[i]? = some ⟨req, Pc.fetch⟩)
    (herr : (ws s.trace.length).Assert s.t.Assertion ⟨transport (ws s.trace.length) s.t⟩ =
      (tk, some e)) :
    step ws s i =
      { s with
        trace := s.trace ++
          [Event.assert s.t.Assertion ⟨transport (ws s.trace.length) s.t⟩]
        calls := s.calls.set i ⟨req, Pc.done (Result.returned none (some e))⟩ } := by
  simp [step, hci, herr]

theorem step_store (ws : Nat → World) (s : Sys) (i : Nat) (req : Nat) (tk : Option Token)
    (hci : s.calls[i]? = some ⟨req, Pc.store tk⟩) :
    step ws s i =
      { s with t := { s.t with Token := tk }, calls := s.calls.set i ⟨req, Pc.send⟩ } := by
  simp [step, hci]

theorem step_send (ws : Nat → World) (s : Sys) (i : Nat) (req : Nat)
    (hci : s.calls[i]? = some ⟨req, Pc.send⟩) :
    step ws s i =
      { s with
        heap := (deliver (ws s.trace.length) s.t s.heap req s.trace).heap
        trace := (deliver (ws s.trace.length) s.t s.heap req s.trace).trace
        calls := s.calls.set i
          ⟨req, Pc.done (deliver (ws s.trace.length) s.t s.heap req s.trace).result⟩ } := by
  simp [step, hci]

theorem mem_set_cases {α : Type} (l : List α) (i : Nat) (b x : α) (hx : x ∈ l.set i b) :
    x = b ∨ ∃ j, j ≠ i ∧ l[j]? = some x := by
  obtain ⟨j, hj⟩ := List.mem_iff_getElem?.mp hx
  by_cases hji : i = j
  · subst hji
    rw [List.getElem?_set] at hj
    simp only [if_true] at hj
    split at hj
    · exact Or.inl (Option.some.inj hj).symm
    · cases hj
  · rw [List.getElem?_set_ne hji] at hj
    exact Or.inr ⟨j, fun h => hji h.symm, hj⟩

theorem lt_of_getElem?_eq_some {α : Type} (l : List α) (i : Nat) (c : α)
    (hci : l[i]? = some c) : i < l.length := by
  rcases Nat.lt_or_ge i l.length with hlt | hge
  · exact hlt
  · rw [List.getElem?_eq_none hge] at hci
    cases hci

theorem step_serialised (ws : Nat → World) (s : Sys) (i : Nat)
    (hA : ∀ n a c, ∃ T, (ws n).Assert a c = (some T, none) ∧
      ∀ m, (ws m).Expired T = false)
    (hinv : Serialised ws s) (hex : s.exclusive = true)
    (hex1 : (step ws s i).exclusive = true) : Serialised ws (step ws s i) := by
  cases hci : s.calls[i]? with
  | none =>
    rw [step_absent ws s i hci]
    exact hinv
  | some c =>
    have hcmem : c ∈ s.calls := List.mem_iff_getElem?.mpr ⟨i, hci⟩
    have hilt : i < s.calls.length := lt_of_getElem?_eq_some _ i c hci
    obtain ⟨req, pc⟩ := c
    obtain ⟨T, hphase⟩ := hinv.phase
    cases pc with
    | check =>
      rcases hphase with ⟨htok, has, hse, hall⟩ |
        ⟨hgood, htok, has, hse, i0, c0, hc0, hpc0, hothers⟩ | ⟨hgood, htok, has, hbe, hall⟩
      · have hn : needsRefresh (ws s.trace.length) s.t = true := by
          simp [needsRefresh, htok]
        rw [step_check_stale ws s i req hci hn]
        refine serialised_quiet ws s _ i ⟨req, Pc.check⟩ ⟨req, Pc.fetch⟩ hinv hci rfl rfl rfl
          rfl rfl rfl ⟨T, Or.inl ⟨htok, has, hse, ?_⟩⟩
        intro x hx
        rcases List.mem_or_eq_of_mem_set hx with hx | hx
        · exact hall x hx
        · exact Or.inr (by rw [hx])
      · exfalso
        have hn : needsRefresh (ws s.trace.length) s.t = true := by
          simp [needsRefresh, htok]
        have hne : i ≠ i0 := by
          intro h
          subst h
          rw [hci] at hc0
          cases hc0
          cases hpc0
        rw [step_check_stale ws s i req hci hn] at hex1
        have hfalse := not_exclusive_of_two { s with calls := s.calls.set i ⟨req, Pc.fetch⟩ }
          i i0 ⟨req, Pc.fetch⟩ c0 hne (List.getElem?_set_self hilt)
          (by simpa [List.getElem?_set_ne hne] using hc0) rfl (by rw [hpc0]; rfl)
        rw [hfalse] at hex1
        cases hex1
      · have hn : needsRefresh (ws s.trace.length) s.t = false := by
          simp [needsRefresh, htok, hgood]
        rw [step_check_valid ws s i req hci hn]
        refine serialised_quiet ws s _ i ⟨req, Pc.check⟩ ⟨req, Pc.send⟩ hinv hci rfl rfl rfl
          rfl rfl rfl ⟨T, Or.inr (Or.inr ⟨hgood, htok, has, hbe, ?_⟩)⟩
        intro x hx
        rcases List.mem_or_eq_of_mem_set hx with hx | hx
        · exact hall x hx
        · exact Or.inr (Or.inl (by rw [hx]))
    | fetch =>
      rcases hphase with ⟨htok, has, hse, hall⟩ |
        ⟨hgood, htok, has, hse, i0, c0, hc0, hpc0, hothers⟩ | ⟨hgood, htok, has, hbe, hall⟩
      · obtain ⟨T1, hok, hgood1⟩ := hA s.trace.length s.t.Assertion
          ⟨transport (ws s.trace.length) s.t⟩
        rw [step_fetch_ok ws s i req (some T1) hci hok]
        have hsent1 : sent (s.trace ++ [Event.assert s.t.Assertion
            ⟨transport (ws s.trace.length) s.t⟩]) = sent s.trace := by
          simp [sent_append, sent]
        refine serialised_quiet ws s _ i ⟨req, Pc.fetch⟩ ⟨req, Pc.store (some T1)⟩ hinv hci rfl
          hsent1 rfl rfl rfl rfl ⟨T1, Or.inr (Or.inl ⟨hgood1, htok, ?_, ?_, ?_⟩)⟩
        · simp [asserts_append, asserts, has]
        · exact hsent1.trans hse
        · refine ⟨i, ⟨req, Pc.store (some T1)⟩, List.getElem?_set_self hilt, rfl, ?_⟩
          intro j d hj hd
          have hd0 : s.calls[j]? = some d := by
            simpa [List.getElem?_set_ne (Ne.symm hj)] using hd
          rcases hall d (List.mem_iff_getElem?.mpr ⟨j, hd0⟩) with h1 | h1
          · exact h1
          · exfalso
            have hfalse := not_exclusive_of_two s i j ⟨req, Pc.fetch⟩ d (Ne.symm hj) hci hd0
              rfl (by rw [h1]; rfl)
            rw [hfalse] at hex
            cases hex
      · exfalso
        by_cases hii : i = i0
        · subst hii
          rw [hci] at hc0
          cases hc0
          cases hpc0
        · have := hothers i ⟨req, Pc.fetch⟩ hii hci
          cases this
      · exfalso
        rcases hall _ hcmem with h1 | h1 | ⟨res, h1⟩ <;> cases h1
    | store tk =>
      rcases hphase with ⟨htok, has, hse, hall⟩ |
        ⟨hgood, htok, has, hse, i0, c0, hc0, hpc0, hothers⟩ | ⟨hgood, htok, has, hbe, hall⟩
      · exfalso
        rcases hall _ hcmem with h1 | h1 <;> cases h1
      · have hii : i = i0 := by
          by_contra hii
          have := hothers i ⟨req, Pc.store tk⟩ hii hci
          cases this
        subst hii
        rw [hci] at hc0
        cases hc0
        cases hpc0
        rw [step_store ws s i req (some T) hci]
        refine serialised_quiet ws s _ i ⟨req, Pc.store (some T)⟩ ⟨req, Pc.send⟩ hinv hci rfl
          rfl rfl rfl rfl rfl ⟨T, Or.inr (Or.inr ⟨hgood, rfl, has, ?_, ?_⟩)⟩
        · intro Hp hHp
          have hHp0 : Hp ∈ sent s.trace := hHp
          rw [hse] at hHp0
          cases hHp0
        · intro x hx
          rcases mem_set_cases _ _ _ _ hx with hx | ⟨j, hj, hx⟩
          · exact Or.inr (Or.inl (by rw [hx]))
          · exact Or.inl (hothers j x hj hx)
      · exfalso
        rcases hall _ hcmem with h1 | h1 | ⟨res, h1⟩ <;> cases h1
    | send =>
      rcases hphase with ⟨htok, has, hse, hall⟩ |
        ⟨hgood, htok, has, hse, i0, c0, hc0, hpc0, hothers⟩ | ⟨hgood, htok, has, hbe, hall⟩
      · exfalso
        rcases hall _ hcmem with h1 | h1 <;> cases h1
      · exfalso
        by_cases hii : i = i0
        · subst hii
          rw [hci] at hc0
          cases hc0
          cases hpc0
        · have := hothers i ⟨req, Pc.send⟩ hii hci
          cases this
      · have hv : req < s.heap.reqs.length := hinv.valid _ hcmem
        obtain ⟨r, hr⟩ : ∃ r, s.heap.reqs[req]? = some r :=
          ⟨s.heap.reqs[req], List.getElem?_eq_getElem hv⟩
        rw [step_send ws s i req hci, deliver_eq _ s.t s.heap req s.trace r T hr htok]
        refine ⟨?_, ?_, ?_, ⟨T, Or.inr (Or.inr ⟨hgood, htok, ?_, ?_, ?_⟩)⟩⟩
        · intro x hx
          have hlen : (derivedHeap s.heap r T).reqs.length = s.heap.reqs.length + 1 := by
            simp [derivedHeap]
          simp only [hlen]
          rcases List.mem_or_eq_of_mem_set hx with hx | hx
          · exact Nat.lt_succ_of_lt (hinv.valid x hx)
          · rw [hx]
            exact Nat.lt_succ_of_lt hv
        · have := countP_set (fun c : Call => c.pc.isDone) s.calls i ⟨req, Pc.send⟩
            ⟨req, Pc.done (Result.returned
              ((ws s.trace.length).RoundTrip (transport (ws s.trace.length) s.t)
                (derivedHeap s.heap r T) s.heap.reqs.length).1
              ((ws s.trace.length).RoundTrip (transport (ws s.trace.length) s.t)
                (derivedHeap s.heap r T) s.heap.reqs.length).2)⟩ hci
          simp only [Pc.isDone, if_true] at this
          simp only [sent_append, sent, List.length_append, List.length_singleton,
            hinv.counted]
          simpa using this.symm
        · intro x hx res hres
          rcases List.mem_or_eq_of_mem_set hx with hx | hx
          · exact hinv.returned x hx res hres
          · rw [hx] at hres
            cases hres
            exact ⟨_, _, rfl⟩
        · simpa [asserts_append, asserts] using has
        · intro Hp hHp
          simp only [sent_append, sent, List.mem_append, List.mem_singleton] at hHp
          rcases hHp with hHp | hHp
          · exact hbe Hp hHp
          · rw [hHp]
            exact (derivedHeap_header_set s.heap r T).1
        · intro x hx
          rcases List.mem_or_eq_of_mem_set hx with hx | hx
          · exact hall x hx
          · exact Or.inr (Or.inr ⟨_, by rw [hx]⟩)
    | done res =>
      rw [step_done ws s i req res hci]
      exact hinv

theorem exclusive_of_exclusiveAlong (ws : Nat → World) (s : Sys) (sched : List Nat)
    (hex : exclusiveAlong ws s sched = true) : s.exclusive = true := by
  cases sched with
  | nil => exact hex
  | cons i rest =>
    simp only [exclusiveAlong, Bool.and_eq_true] at hex
    exact hex.1

theorem run_serialised (ws : Nat → World) (sched : List Nat) (s : Sys)
    (hA : ∀ n a c, ∃ T, (ws n).Assert a c = (some T, none) ∧
      ∀ m, (ws m).Expired T = false)
    (hinv : Serialised ws s) (hex : exclusiveAlong ws s sched = true) :
    Serialised ws (run ws s sched) := by
  induction sched generalizing s with
  | nil => exact hinv
  | cons i rest ih =>
    simp only [exclusiveAlong, Bool.and_eq_true] at hex
    exact ih (step ws s i)
      (step_serialised ws s i hA hinv hex.1
        (exclusive_of_exclusiveAlong ws _ rest hex.2))
      hex.2

theorem start_serialised (ws : Nat → World) (t : ServiceAccountTransport) (h : Heap)
    (reqs : List Nat) (hnil : t.Token = none) (hreqs : ∀ r ∈ reqs, r < h.reqs.length) :
    Serialised ws (start t h reqs) := by
  have hpc : ∀ c ∈ (start t h reqs).calls, c.pc = Pc.check ∧ c.req ∈ reqs := by
    intro c hc
    simp only [start, List.mem_map] at hc
    obtain ⟨r, hr, rfl⟩ := hc
    exact ⟨rfl, hr⟩
  refine ⟨?_, ?_, ?_, ⟨⟨"", 0⟩, Or.inl ⟨hnil, rfl, rfl, fun c hc => Or.inl (hpc c hc).1⟩⟩⟩
  · intro c hc
    exact hreqs _ (hpc c hc).2
  · have : (start t h reqs).calls.countP (fun c => c.pc.isDone) = 0 := by
      rw [List.countP_eq_zero]
      intro c hc
      rw [(hpc c hc).1]
      simp [Pc.isDone]
    rw [this]
    rfl
  · intro c hc res hres
    rw [(hpc c hc).1] at hres
    cases hres

theorem step_other (ws : Nat → World) (s : Sys) (i j : Nat) (hij : i ≠ j) :
    (step ws s i).calls[j]? = s.calls[j]? := by
  cases hci : s.calls[i]? with
  | none => rw [step_absent ws s i hci]
  | some c =>
    obtain ⟨req, pc⟩ := c
    cases pc with
    | check =>
      cases hn : needsRefresh (ws s.trace.length) s.t with
      | true =>
        rw [step_check_stale ws s i req hci hn]
        exact List.getElem?_set_ne hij
      | false =>
        rw [step_check_valid ws s i req hci hn]
        exact List.getElem?_set_ne hij
    | fetch =>
      rcases hA : (ws s.trace.length).Assert s.t.Assertion
        ⟨transport (ws s.trace.length) s.t⟩ with ⟨tk, _ | e⟩
      · rw [step_fetch_ok ws s i req tk hci hA]
        exact List.getElem?_set_ne hij
      · rw [step_fetch_error ws s i req tk e hci hA]
        exact List.getElem?_set_ne hij
    | store tk =>
      rw [step_store ws s i req tk hci]
      exact List.getElem?_set_ne hij
    | send =>
      rw [step_send ws s i req hci]
      exact List.getElem?_set_ne hij
    | done res => rw [step_done ws s i req res hci]

theorem step_rank (ws : Nat → World) (s : Sys) (i : Nat) (c : Call)
    (hci : s.calls[i]? = some c) :
    ∃ c1, (step ws s i).calls[i]? = some c1 ∧ c1.req = c.req ∧
      c1.pc.rank ≤ c.pc.rank - 1 := by
  have hilt : i < s.calls.length := lt_of_getElem?_eq_some _ i c hci
  obtain ⟨req, pc⟩ := c
  cases pc with
  | check =>
    cases hn : needsRefresh (ws s.trace.length) s.t with
    | true =>
      rw [step_check_stale ws s i req hci hn]
      exact ⟨_, List.getElem?_set_self hilt, rfl, by simp [Pc.rank]⟩
    | false =>
      rw [step_check_valid ws s i req hci hn]
      exact ⟨_, List.getElem?_set_self hilt, rfl, by simp [Pc.rank]⟩
  | fetch =>
    rcases hA : (ws s.trace.length).Assert s.t.Assertion
      ⟨transport (ws s.trace.length) s.t⟩ with ⟨tk, _ | e⟩
    · rw [step_fetch_ok ws s i req tk hci hA]
      exact ⟨_, List.getElem?_set_self hilt, rfl, by simp [Pc.rank]⟩
    · rw [step_fetch_error ws s i req tk e hci hA]
      exact ⟨_, List.getElem?_set_self hilt, rfl, by simp [Pc.rank]⟩
  | store tk =>
    rw [step_store ws s i req tk hci]
    exact ⟨_, List.getElem?_set_self hilt, rfl, by simp [Pc.rank]⟩
  | send =>
    rw [step_send ws s i req hci]
    exact ⟨_, List.getElem?_set_self hilt, rfl, by simp [Pc.rank]⟩
  | done res =>
    rw [step_done ws s i req res hci]
    exact ⟨_, hci, rfl, by simp [Pc.rank]⟩

theorem run_rank (ws : Nat → World) (sched : List Nat) (s : Sys) (i : Nat) (c : Call)
    (hci : s.calls[i]? = some c) :
    ∃ c1, (run ws s sched).calls[i]? = some c1 ∧ c1.req = c.req ∧
      c1.pc.rank ≤ c.pc.rank - sched.count i := by
  induction sched generalizing s c with
  | nil => exact ⟨c, hci, rfl, by simp⟩
  | cons j rest ih =>
    by_cases hji : j = i
    · subst hji
      obtain ⟨c1, hc1, hreq1, hrank1⟩ := step_rank ws s j c hci
      obtain ⟨c2, hc2, hreq2, hrank2⟩ := ih (step ws s j) c1 hc1
      refine ⟨c2, hc2, hreq2.trans hreq1, ?_⟩
      simp only [List.count_cons_self]
      omega
    · have hc1 : (step ws s j).calls[i]? = some c := by
        rw [step_other ws s j i hji, hci]
      obtain ⟨c2, hc2, hreq2, hrank2⟩ := ih (step ws s j) c hc1
      refine ⟨c2, hc2, hreq2, ?_⟩
      rw [List.count_cons_of_ne (fun h => hji h.symm)]
      exact hrank2

theorem done_of_rank_zero (pc : Pc) (h0 : pc.rank = 0) : ∃ res, pc = Pc.done res := by
  cases pc with
  | done res => exact ⟨res, rfl⟩
  | check => simp [Pc.rank] at h0
  | fetch => simp [Pc.rank] at h0
  | store tk => simp [Pc.rank] at h0
  | send => simp [Pc.rank] at h0

/-- A single call that takes its steps alone does what `RoundTrip` does. -/
theorem run_alone (w : World) (t : ServiceAccountTransport) (h : Heap) (req : Nat) :
    run (fun _ => w) (start t h [req]) [0, 0, 0, 0] =
      ⟨(RoundTrip w t h req).t, (RoundTrip w t h req).heap, (RoundTrip w t h req).trace,
        [⟨req, Pc.done (RoundTrip w t h req).result⟩]⟩ := by
  cases hn : needsRefresh w t with
  | false =>
    have hr : refreshToken w t = (none, t, []) := by simp [refreshToken, hn]
    have hd : ∀ (h1 : Heap) (tr : List Event), (deliver w t h1 req tr).t = t := by
      intro h1 tr
      unfold deliver
      repeat' split
      all_goals rfl
    simp [run, start, step, hn, RoundTrip, hr, hd]
  | true =>
    rcases hA : w.Assert t.Assertion ⟨transport w t⟩ with ⟨tk, _ | e⟩
    · have hr : refreshToken w t =
          (none, { t with Token := tk }, [Event.assert t.Assertion ⟨transport w t⟩]) := by
        simp [refreshToken, hn, hA]
      have hd : ∀ (t1 : ServiceAccountTransport) (h1 : Heap) (tr : List Event),
          (deliver w t1 h1 req tr).t = t1 := by
        intro t1 h1 tr
        unfold deliver
        repeat' split
        all_goals rfl
      simp [run, start, step, hn, RoundTrip, hr, hd, hA]
    · have hr : refreshToken w t =
          (some e, t, [Event.assert t.Assertion ⟨transport w t⟩]) := by
        simp [refreshToken, hn, hA]
      simp [run, start, step, hn, RoundTrip, hr, hA]

/-! ## Claims -/

/-- C1 (fetch-failure short-circuit): when the cached token is nil or expired
and `Assert` returns the error `e`, `RoundTrip` returns `(nil, e)`, hands no
request to the base transport, and leaves the transport, its `Token` field
included, and the heap as they were. -/
theorem fetch_failure_short_circuit (w : World) (t : ServiceAccountTransport) (h : Heap)
    (req : Nat) (e : String)
    (hstale : t.Token = none ∨ ∃ tok, t.Token = some tok ∧ w.Expired tok = true)
    (herr : (w.Assert t.Assertion ⟨transport w t⟩).2 = some e) :
    (RoundTrip w t h req).result = Result.returned none (some e) ∧
      sent (RoundTrip w t h req).trace = [] ∧
      (RoundTrip w t h req).t.Token = t.Token ∧
      (RoundTrip w t h req).t = t ∧
      (RoundTrip w t h req).heap = h ∧
      (RoundTrip w t h req).trace = [Event.assert t.Assertion ⟨transport w t⟩] := by
  have hr := refreshToken_error w t e (needsRefresh_of_stale w t hstale) herr
  simp [RoundTrip, hr, sent]

/-- Witness for C1: an expired cached token stays cached when the exchange
fails. -/
theorem fetch_failure_short_circuit_witness :
    (RoundTrip failingWorld expiredTransport exampleHeap 0).result =
        Result.returned none (some "invalid response: 401") ∧
      sent (RoundTrip failingWorld expiredTransport exampleHeap 0).trace = [] ∧
      (RoundTrip failingWorld expiredTransport exampleHeap 0).t.Token = some ⟨"old", 50⟩ :=
  have h := fetch_failure_short_circuit failingWorld expiredTransport exampleHeap 0
    "invalid response: 401" (Or.inr ⟨⟨"old", 50⟩, rfl, by decide⟩) rfl
  ⟨h.1, h.2.1, h.2.2.1⟩

/-- C3 (refresh-skip-on-valid): with a cached token that is not expired,
`RoundTrip` makes no call of `Assert`, leaves the `Token` field as it was, and
its one call is the call of the base transport, on a request that, in the heap
the base transport is shown, carries the `Authorization` header with the
single value `"Bearer "` followed by the cached `AccessToken`; what `RoundTrip`
returns is the answer of the base transport on that heap and request. -/
theorem refresh_skip_on_valid (w : World) (t : ServiceAccountTransport) (h : Heap) (req : Nat)
    (tok : Token) (r : Request)
    (htok : t.Token = some tok) (hfresh : w.Expired tok = false)
    (hreq : h.reqs[req]? = some r) :
    asserts (RoundTrip w t h req).trace = [] ∧
      (RoundTrip w t h req).t.Token = t.Token ∧
      ∃ H, (RoundTrip w t h req).trace =
          [Event.roundTrip (transport w t) H h.reqs.length] ∧
        H.header h.reqs.length "Authorization" = some ["Bearer " ++ tok.AccessToken] ∧
        (RoundTrip w t h req).result =
          Result.returned (w.RoundTrip (transport w t) H h.reqs.length).1
            (w.RoundTrip (transport w t) H h.reqs.length).2 := by
  rw [RoundTrip_eq w t t h req [] r tok (refreshToken_valid w t tok htok hfresh) hreq htok]
  exact ⟨rfl, rfl, derivedHeap h r tok, rfl, (derivedHeap_header_set h r tok).1, rfl⟩

/-- Witness for C3: a transport caching the unexpired token `cached`. -/
theorem refresh_skip_on_valid_witness :
    asserts (RoundTrip exampleWorld validTransport exampleHeap 0).trace = [] ∧
      (RoundTrip exampleWorld validTransport exampleHeap 0).t.Token = some ⟨"cached", 500⟩ ∧
      ∃ H, (RoundTrip exampleWorld validTransport exampleHeap 0).trace =
          [Event.roundTrip 3 H 1] ∧
        H.header 1 "Authorization" = some ["Bearer cached"] ∧
        (RoundTrip exampleWorld validTransport exampleHeap 0).result =
          Result.returned (some 7) none :=
  refresh_skip_on_valid exampleWorld validTransport exampleHeap 0 ⟨"cached", 500⟩
    ⟨"POST", "https://www.googleapis.com/identitytoolkit", 0, some 0⟩ rfl (by decide) rfl

/-- C4 (refresh on absence or expiry): with a cached token that is nil or
expired and an `Assert` that succeeds with the token `T`, `RoundTrip` calls
`Assert` exactly once and then the base transport exactly once, the `Token`
field afterwards is `T`, and the request handed to the base transport carries,
in the heap the base transport is shown, the `Authorization` header with the
single value `"Bearer "` followed by the `AccessToken` of `T`; what `RoundTrip`
returns is the answer of the base transport on that heap and request. -/
theorem refresh_on_absence_or_expiry (w : World) (t : ServiceAccountTransport) (h : Heap)
    (req : Nat) (T : Token) (r : Request)
    (hstale : t.Token = none ∨ ∃ tok, t.Token = some tok ∧ w.Expired tok = true)
    (hok : w.Assert t.Assertion ⟨transport w t⟩ = (some T, none))
    (hreq : h.reqs[req]? = some r) :
    (RoundTrip w t h req).t.Token = some T ∧
      asserts (RoundTrip w t h req).trace = [(t.Assertion, ⟨transport w t⟩)] ∧
      ∃ H, (RoundTrip w t h req).trace =
          [Event.assert t.Assertion ⟨transport w t⟩,
            Event.roundTrip (transport w t) H h.reqs.length] ∧
        H.header h.reqs.length "Authorization" = some ["Bearer " ++ T.AccessToken] ∧
        (RoundTrip w t h req).result =
          Result.returned (w.RoundTrip (transport w t) H h.reqs.length).1
            (w.RoundTrip (transport w t) H h.reqs.length).2 := by
  rw [RoundTrip_eq w t { t with Token := some T } h req _ r T
    (refreshToken_fetch w t (some T) (needsRefresh_of_stale w t hstale) hok) hreq rfl]
  exact ⟨rfl, rfl, derivedHeap h r T, rfl, (derivedHeap_header_set h r T).1, rfl⟩

/-- Witness for C4: the expired token `old` is replaced by the token `fresh`. -/
theorem refresh_on_absence_or_expiry_witness :
    (RoundTrip exampleWorld expiredTransport exampleHeap 0).t.Token = some ⟨"fresh", 0⟩ ∧
      asserts (RoundTrip exampleWorld expiredTransport exampleHeap 0).trace = [(1, ⟨3⟩)] ∧
      ∃ H, (RoundTrip exampleWorld expiredTransport exampleHeap 0).trace =
          [Event.assert 1 ⟨3⟩, Event.roundTrip 3 H 1] ∧
        H.header 1 "Authorization" = some ["Bearer fresh"] ∧
        (RoundTrip exampleWorld expiredTransport exampleHeap 0).result =
          Result.returned (some 7) none :=
  refresh_on_absence_or_expiry exampleWorld expiredTransport exampleHeap 0 ⟨"fresh", 0⟩
    ⟨"POST", "https://www.googleapis.com/identitytoolkit", 0, some 0⟩
    (Or.inr ⟨⟨"old", 50⟩, rfl, by decide⟩) rfl rfl

/-- C6 (result passthrough): when the credential step succeeds, `RoundTrip`
calls the base transport exactly once, on the derived request, and returns the
very (response, error) pair of that call; an error of the base transport is
returned as it is. -/
theorem result_passthrough (w : World) (t : ServiceAccountTransport) (h : Heap) (req : Nat)
    (tok : Token) (r : Request)
    (hcred : CredentialStep w t tok) (hreq : h.reqs[req]? = some r) :
    sent (RoundTrip w t h req).trace = [((RoundTrip w t h req).heap, h.reqs.length)] ∧
      (RoundTrip w t h req).result =
        Result.returned
          (w.RoundTrip (transport w t) (RoundTrip w t h req).heap h.reqs.length).1
          (w.RoundTrip (transport w t) (RoundTrip w t h req).heap h.reqs.length).2 ∧
      ∀ e, (w.RoundTrip (transport w t) (RoundTrip w t h req).heap h.reqs.length).2 = some e →
        ∃ resp, (RoundTrip w t h req).result = Result.returned resp (some e) := by
  obtain ⟨hheap, hsent, hres⟩ := RoundTrip_of_credentialStep w t h req tok r hcred hreq
  rw [hheap]
  refine ⟨hsent, hres, ?_⟩
  intro e he
  rw [hres]
  exact ⟨(w.RoundTrip (transport w t) (derivedHeap h r tok) h.reqs.length).1,
    congrArg _ he⟩

/-- Witness for C6: the error of a failing base transport comes back as it
is. -/
theorem result_passthrough_witness :
    (sent (RoundTrip brokenBaseWorld validTransport exampleHeap 0).trace).map Prod.snd = [1] ∧
      (RoundTrip brokenBaseWorld validTransport exampleHeap 0).result =
        Result.returned none (some "dial tcp: timeout") :=
  have h := result_passthrough brokenBaseWorld validTransport exampleHeap 0 ⟨"cached", 500⟩
    ⟨"POST", "https://www.googleapis.com/identitytoolkit", 0, some 0⟩
    (Or.inl ⟨rfl, by decide⟩) rfl
  ⟨by rw [h.1]; rfl, h.2.1⟩

/-- C2 (no-mutation invariant): whatever the transport state and however the
call ends, after `RoundTrip` the request object it was given shows the same
method, URL and body and the same header keys with the same value lists as
before, under every key it carries what it carried before, and every object
that existed before the call is unchanged; so nothing that `RoundTrip` sets is
written to the original request. -/
theorem no_mutation (w : World) (t : ServiceAccountTransport) (h : Heap) (req : Nat)
    (hvalid : h.validReq req = true) :
    (RoundTrip w t h req).heap.view req = h.view req ∧
      (∀ k, (RoundTrip w t h req).heap.header req k = h.header req k) ∧
      Heap.Extends h (RoundTrip w t h req).heap :=
  ⟨view_of_extends h _ req (RoundTrip_extends w t h req) hvalid,
    fun k => header_eq_of_extends h _ req k (RoundTrip_extends w t h req) hvalid,
    RoundTrip_extends w t h req⟩

/-- Witness for C2: a request with a non-empty header collection keeps its two
headers and gets none of the three that `RoundTrip` sets. -/
theorem no_mutation_witness :
    (RoundTrip exampleWorld emptyTransport exampleHeap 0).heap.view 0 =
        some ("POST", "https://www.googleapis.com/identitytoolkit", 0,
          [("content-type", ["text/plain"]), ("X-A", ["a", "b"])]) ∧
      (RoundTrip exampleWorld emptyTransport exampleHeap 0).heap.header 0 "Authorization" =
        none :=
  have h := no_mutation exampleWorld emptyTransport exampleHeap 0 (by decide)
  ⟨h.1.trans (by decide), (h.2.1 "Authorization").trans (by decide)⟩

/-- C8 (derived request shape): when the credential step succeeds, the base
transport is called once, and in the heap it is shown the request handed to it
has the method, URL and body of the original; under every key other than
`Authorization`, `User-Agent` and `Content-Type` it carries exactly what the
original carries; it carries those three keys; its keys are the keys of the
original together with those three, each once; and for an original whose header
map is nil or empty its keys are exactly those three.  What `RoundTrip` returns
is the answer of the base transport on that heap and request. -/
theorem derived_request_shape (w : World) (t : ServiceAccountTransport) (h : Heap) (req : Nat)
    (tok : Token) (r : Request)
    (hcred : CredentialStep w t tok) (hreq : h.reqs[req]? = some r)
    (hvalid : h.validReq req = true)
    (hkeys : (HeaderMap.keys (h.entries r.Header)).Nodup) :
    ∃ H, sent (RoundTrip w t h req).trace = [(H, h.reqs.length)] ∧
      (RoundTrip w t h req).result =
        Result.returned (w.RoundTrip (transport w t) H h.reqs.length).1
          (w.RoundTrip (transport w t) H h.reqs.length).2 ∧
      H.reqs[h.reqs.length]? =
        some { Method := r.Method, URL := r.URL, Body := r.Body,
               Header := some h.hdrs.length } ∧
      (∀ k, k ∉ setKeys → H.header h.reqs.length k = h.header req k) ∧
      (∀ k, k ∈ setKeys → (H.header h.reqs.length k).isSome = true) ∧
      (∀ k, k ∈ HeaderMap.keys (H.entries (some h.hdrs.length)) ↔
        k ∈ HeaderMap.keys (h.entries r.Header) ∨ k ∈ setKeys) ∧
      (HeaderMap.keys (H.entries (some h.hdrs.length))).Nodup ∧
      (h.entries r.Header = [] →
        HeaderMap.keys (H.entries (some h.hdrs.length)) = setKeys) := by
  obtain ⟨-, hsent, hres⟩ := RoundTrip_of_credentialStep w t h req tok r hcred hreq
  refine ⟨derivedHeap h r tok, hsent, hres, derivedHeap_req h r tok, ?_, ?_, ?_, ?_, ?_⟩
  · intro k hk
    exact derivedHeap_header_other h req r tok k hreq hvalid hkeys hk
  · intro k hk
    have hset := derivedHeap_header_set h r tok
    simp only [setKeys, List.mem_cons, List.mem_singleton, List.not_mem_nil, or_false] at hk
    rcases hk with rfl | rfl | rfl
    · simp only [hset.1, Option.isSome_some]
    · simp only [hset.2.1, Option.isSome_some]
    · simp only [hset.2.2, Option.isSome_some]
  · intro k
    simp only [derivedHeap_entries]
    exact mem_keys_derivedMap _ _ k
  · simp only [derivedHeap_entries]
    exact nodup_keys_derivedMap _ _
  · intro hnil
    simp only [derivedHeap_entries, hnil]
    rfl

/-- Witness for C8: a request with a nil header map is handed over with exactly
the three headers, and a request with two headers keeps what it carries under
`X-A`. -/
theorem derived_request_shape_witness :
    (∃ H, sent (RoundTrip exampleWorld emptyTransport bareHeap 0).trace = [(H, 1)] ∧
        HeaderMap.keys (H.entries (some 0)) =
          ["Authorization", "User-Agent", "Content-Type"]) ∧
      ∃ H, sent (RoundTrip exampleWorld validTransport exampleHeap 0).trace = [(H, 1)] ∧
        H.header 1 "X-A" = some ["a", "b"] :=
  ⟨(derived_request_shape exampleWorld emptyTransport bareHeap 0 ⟨"fresh", 0⟩
      ⟨"GET", "https://www.googleapis.com/identitytoolkit", 0, none⟩
      (Or.inr ⟨Or.inl rfl, rfl⟩) rfl (by decide) (by decide)).imp
      fun _ hH => ⟨hH.1, hH.2.2.2.2.2.2.2 rfl⟩,
    (derived_request_shape exampleWorld validTransport exampleHeap 0 ⟨"cached", 500⟩
      ⟨"POST", "https://www.googleapis.com/identitytoolkit", 0, some 0⟩
      (Or.inl ⟨rfl, by decide⟩) rfl (by decide) (by decide)).imp
      fun _ hH => ⟨hH.1, (hH.2.2.2.1 "X-A" (by decide)).trans (by decide)⟩⟩

/-- C5, counterexample: a request that carries `text/plain` under the key
`content-type` is handed to the base transport carrying two values for the
header name `Content-Type`, the old `text/plain` among them. -/
theorem header_override_counterexample :
    ∃ H, sent (RoundTrip exampleWorld validTransport exampleHeap 0).trace = [(H, 1)] ∧
      H.carried 1 "Content-Type" = ["text/plain", "application/json"] :=
  ⟨(RoundTrip exampleWorld validTransport exampleHeap 0).heap, by decide, by decide⟩

/-- C5, amended (header override on the exact keys): when the credential step
succeeds, the base transport is called once, and in the heap it is shown the
request handed to it binds each of the map keys `Authorization`, `User-Agent`
and `Content-Type` to exactly one value, `"Bearer "` followed by the token,
`gitkit-go-client/0.1` and `application/json`; each is held in an array
allocated by the call, so no value the original had under these keys survives;
every key of the original, whatever its spelling, is still a key of the request
handed over. -/
theorem header_override_exact_keys (w : World) (t : ServiceAccountTransport) (h : Heap)
    (req : Nat) (tok : Token) (r : Request)
    (hcred : CredentialStep w t tok) (hreq : h.reqs[req]? = some r) :
    ∃ H, sent (RoundTrip w t h req).trace = [(H, h.reqs.length)] ∧
      (RoundTrip w t h req).result =
        Result.returned (w.RoundTrip (transport w t) H h.reqs.length).1
          (w.RoundTrip (transport w t) H h.reqs.length).2 ∧
      H.header h.reqs.length "Authorization" = some ["Bearer " ++ tok.AccessToken] ∧
      H.header h.reqs.length "User-Agent" = some ["gitkit-go-client/0.1"] ∧
      H.header h.reqs.length "Content-Type" = some ["application/json"] ∧
      (∀ k, k ∈ setKeys → ∃ s,
        HeaderMap.lookup (H.entries (some h.hdrs.length)) k = some s ∧
          h.arrs.length ≤ s.arr ∧ s.len = 1) ∧
      (HeaderMap.keys (H.entries (some h.hdrs.length))).Nodup ∧
      (∀ k, k ∈ HeaderMap.keys (h.entries r.Header) →
        k ∈ HeaderMap.keys (H.entries (some h.hdrs.length))) := by
  obtain ⟨-, hsent, hres⟩ := RoundTrip_of_credentialStep w t h req tok r hcred hreq
  have hset := derivedHeap_header_set h r tok
  refine ⟨derivedHeap h r tok, hsent, hres, hset.1, hset.2.1, hset.2.2, ?_, ?_, ?_⟩
  · intro k hk
    simp only [setKeys, List.mem_cons, List.mem_singleton, List.not_mem_nil, or_false] at hk
    simp only [derivedHeap_entries, lookup_derivedMap]
    rcases hk with rfl | rfl | rfl
    · exact ⟨⟨h.arrs.length, 1⟩, by simp, Nat.le_refl _, rfl⟩
    · exact ⟨⟨h.arrs.length + 1, 1⟩, by simp, Nat.le_add_right _ _, rfl⟩
    · exact ⟨⟨h.arrs.length + 2, 1⟩, by simp, Nat.le_add_right _ _, rfl⟩
  · simp only [derivedHeap_entries]
    exact nodup_keys_derivedMap _ _
  · intro k hk
    simp only [derivedHeap_entries]
    exact (mem_keys_derivedMap _ _ k).mpr (Or.inl hk)

/-- Witness for C5, amended: `Content-Type: text/plain` and `Authorization: Basic abc`
under their canonical keys are replaced on the request handed over. -/
theorem header_override_exact_keys_witness :
    canonicalHeap.header 0 "Content-Type" = some ["text/plain"] ∧
      canonicalHeap.header 0 "Authorization" = some ["Basic abc"] ∧
      ∃ H, sent (RoundTrip exampleWorld validTransport canonicalHeap 0).trace = [(H, 1)] ∧
        H.header 1 "Authorization" = some ["Bearer cached"] ∧
        H.header 1 "Content-Type" = some ["application/json"] :=
  ⟨by decide, by decide,
    (header_override_exact_keys exampleWorld validTransport canonicalHeap 0
      ⟨"cached", 500⟩ ⟨"POST", "https://www.googleapis.com/identitytoolkit", 0, some 0⟩
      (Or.inl ⟨rfl, by decide⟩) rfl).imp
      fun _ hH => ⟨hH.1, hH.2.2.1, hH.2.2.2.2.1⟩⟩

/-- C7, counterexample: the derived request holds under `X-A` the very slice
the original holds, so writing element 0 of that value list through the derived
request changes what the original carries under `X-A`. -/
theorem header_independence_counterexample :
    HeaderMap.lookup
        ((RoundTrip exampleWorld validTransport exampleHeap 0).heap.entries (some 1)) "X-A" =
        some ⟨1, 2⟩ ∧
      HeaderMap.lookup (exampleHeap.entries (some 0)) "X-A" = some ⟨1, 2⟩ ∧
      (RoundTrip exampleWorld validTransport exampleHeap 0).heap.header 0 "X-A" =
        some ["a", "b"] ∧
      ((RoundTrip exampleWorld validTransport exampleHeap 0).heap.setElem ⟨1, 2⟩ 0
        "changed").header 0 "X-A" = some ["changed", "b"] := by
  decide

/-- C7, amended (independence of the header map only): when the credential
step succeeds, the derived request has a header map of its own, allocated by the
call and distinct from the map of the original; assigning or deleting a key in
the map of the derived request (also through `Set` and `Del`) changes nothing
that the original shows, and assigning or deleting a key in the map of the
original changes nothing that the derived request shows; the value list of every
copied key is the slice of the original, over the same backing array. -/
theorem header_map_independence (w : World) (t : ServiceAccountTransport) (h : Heap)
    (req : Nat) (tok : Token) (r : Request)
    (hcred : CredentialStep w t tok) (hreq : h.reqs[req]? = some r)
    (hvalid : h.validReq req = true)
    (hkeys : (HeaderMap.keys (h.entries r.Header)).Nodup) :
    (RoundTrip w t h req).heap.reqs[h.reqs.length]? =
        some { Method := r.Method, URL := r.URL, Body := r.Body,
               Header := some h.hdrs.length } ∧
      r.Header ≠ some h.hdrs.length ∧
      (∀ k v, ((RoundTrip w t h req).heap.assign h.hdrs.length k v).view req = h.view req) ∧
      (∀ k, ((RoundTrip w t h req).heap.delete h.hdrs.length k).view req = h.view req) ∧
      (∀ key value,
        ((RoundTrip w t h req).heap.Set h.hdrs.length key value).view req = h.view req) ∧
      (∀ key, ((RoundTrip w t h req).heap.Del h.hdrs.length key).view req = h.view req) ∧
      (∀ m k v, r.Header = some m →
        ((RoundTrip w t h req).heap.assign m k v).view h.reqs.length =
          (RoundTrip w t h req).heap.view h.reqs.length) ∧
      (∀ m k, r.Header = some m →
        ((RoundTrip w t h req).heap.delete m k).view h.reqs.length =
          (RoundTrip w t h req).heap.view h.reqs.length) ∧
      (∀ k s, k ∉ setKeys → HeaderMap.lookup (h.entries r.Header) k = some s →
        HeaderMap.lookup ((RoundTrip w t h req).heap.entries (some h.hdrs.length)) k =
          some s) := by
  have hext := RoundTrip_extends w t h req
  have hne : r.Header ≠ some h.hdrs.length := by
    intro hm
    exact Nat.lt_irrefl _ ((validReq_elim h req r hvalid hreq).1 _ hm)
  obtain ⟨t1, tr, hrefresh, htok, -, -⟩ := refreshToken_of_credentialStep w t tok hcred
  rw [RoundTrip_eq w t t1 h req tr r tok hrefresh hreq htok] at hext ⊢
  simp only at hext ⊢
  refine ⟨derivedHeap_req h r tok, hne, ?_, ?_, ?_, ?_, ?_, ?_, ?_⟩
  · intro k v
    exact view_of_extends h _ req (extends_assign h _ _ k v hext (Nat.le_refl _)) hvalid
  · intro k
    exact view_of_extends h _ req (extends_delete h _ _ k hext (Nat.le_refl _)) hvalid
  · intro key value
    exact view_of_extends h _ req (extends_Set h _ _ key value hext (Nat.le_refl _)) hvalid
  · intro key
    exact view_of_extends h _ req (extends_delete h _ _ _ hext (Nat.le_refl _)) hvalid
  · intro m k v hm
    apply view_assign_other _ _ m k v _ (derivedHeap_req h r tok)
    intro heq
    have : h.hdrs.length = m := Option.some.inj heq
    exact hne (hm.trans (by rw [this]))
  · intro m k hm
    apply view_delete_other _ _ m k _ (derivedHeap_req h r tok)
    intro heq
    have : h.hdrs.length = m := Option.some.inj heq
    exact hne (hm.trans (by rw [this]))
  · intro k s hk hl
    rw [derivedHeap_entries, lookup_derivedMap_other _ _ k hkeys hk, hl]

/-- Witness for C7, amended: deleting `X-A` from the derived request leaves the
original as it was, and the derived request holds the slice of the original
under `X-A`. -/
theorem header_map_independence_witness :
    ((RoundTrip exampleWorld validTransport exampleHeap 0).heap.delete 1 "X-A").view 0 =
        some ("POST", "https://www.googleapis.com/identitytoolkit", 0,
          [("content-type", ["text/plain"]), ("X-A", ["a", "b"])]) ∧
      HeaderMap.lookup
        ((RoundTrip exampleWorld validTransport exampleHeap 0).heap.entries (some 1)) "X-A" =
        some ⟨1, 2⟩ :=
  have h := header_map_independence exampleWorld validTransport exampleHeap 0 ⟨"cached", 500⟩
    ⟨"POST", "https://www.googleapis.com/identitytoolkit", 0, some 0⟩
    (Or.inl ⟨rfl, by decide⟩) rfl (by decide) (by decide)
  ⟨(h.2.2.2.1 "X-A").trans (by decide), h.2.2.2.2.2.2.2.2 "X-A" ⟨1, 2⟩ (by decide) (by decide)⟩

/-- C9, counterexample: a transport configured with `http.DefaultTransport`
itself makes `transport` return `http.DefaultTransport` although the field is
not nil, so "returns `http.DefaultTransport` exactly when the field is nil"
fails there. -/
theorem transport_fallback_counterexample :
    transport exampleWorld defaultConfigured = exampleWorld.DefaultTransport ∧
      defaultConfigured.Transport ≠ none ∧
      ¬ (transport exampleWorld defaultConfigured = exampleWorld.DefaultTransport ↔
        defaultConfigured.Transport = none) := by
  decide

/-- C9, amended (default transport fallback): `transport` returns the
configured `Transport` field whenever it is not nil and `http.DefaultTransport`
when it is nil, so its result is `http.DefaultTransport` exactly when the field
is nil or holds `http.DefaultTransport`.  `RoundTrip` resolves the transport at
call time: when the token is nil or expired its first call is `Assert` with a
client on that transport and there is no other call of `Assert`, when the token
is valid there is none; when the credential step succeeds its last call hands
the derived request to that transport and returns its answer; no call names
another transport, and the `Transport` field is not written. -/
theorem transport_fallback (w : World) (t : ServiceAccountTransport) (h : Heap) (req : Nat) :
    (∀ tr, t.Transport = some tr → transport w t = tr) ∧
      (t.Transport = none → transport w t = w.DefaultTransport) ∧
      (transport w t = w.DefaultTransport ↔
        t.Transport = none ∨ t.Transport = some w.DefaultTransport) ∧
      (needsRefresh w t = true →
        ∃ rest, (RoundTrip w t h req).trace =
            Event.assert t.Assertion ⟨transport w t⟩ :: rest ∧ asserts rest = []) ∧
      (needsRefresh w t = false → asserts (RoundTrip w t h req).trace = []) ∧
      (∀ tok r, CredentialStep w t tok → h.reqs[req]? = some r →
        ∃ pre H, (RoundTrip w t h req).trace =
            pre ++ [Event.roundTrip (transport w t) H h.reqs.length] ∧
          sent pre = [] ∧
          (RoundTrip w t h req).result =
            Result.returned (w.RoundTrip (transport w t) H h.reqs.length).1
              (w.RoundTrip (transport w t) H h.reqs.length).2) ∧
      (∀ a c, Event.assert a c ∈ (RoundTrip w t h req).trace → c.Transport = transport w t) ∧
      (∀ b H p, Event.roundTrip b H p ∈ (RoundTrip w t h req).trace → b = transport w t) ∧
      (RoundTrip w t h req).t.Transport = t.Transport := by
  have hsh := refreshToken_shape w t
  have htrace := refreshToken_trace w t
  have hrt := RoundTrip_shape w t h req
  have hmem : ∀ e, e ∈ (RoundTrip w t h req).trace →
      e = Event.assert t.Assertion ⟨transport w t⟩ ∨
        e = Event.roundTrip (transport w t) (RoundTrip w t h req).heap h.reqs.length := by
    intro e he
    rcases hrt.2 with htr | htr <;> rcases hsh.2.2 with hr | hr <;>
      rw [htr, hr] at he <;> simp at he <;> tauto
  refine ⟨?_, ?_, ?_, ?_, ?_, ?_, ?_, ?_, ?_⟩
  · intro tr htr
    simp [transport, htr]
  · intro hnil
    simp [transport, hnil]
  · cases ht : t.Transport with
    | none => simp [transport, ht]
    | some tr => simp [transport, ht]
  · intro hn
    rw [if_pos hn] at htrace
    rcases hrt.2 with htr | htr
    · exact ⟨[], by rw [htr, htrace], rfl⟩
    · exact ⟨[Event.roundTrip (transport w t) (RoundTrip w t h req).heap h.reqs.length],
        by rw [htr, htrace]; rfl, rfl⟩
  · intro hn
    rw [if_neg (by simp [hn])] at htrace
    rcases hrt.2 with htr | htr
    · rw [htr, htrace]
      rfl
    · rw [htr, htrace]
      rfl
  · intro tok r hcred hreq
    obtain ⟨t1, tr, hrefresh, htok, htr, hsent⟩ := refreshToken_of_credentialStep w t tok hcred
    rw [RoundTrip_eq w t t1 h req tr r tok hrefresh hreq htok, htr]
    exact ⟨tr, derivedHeap h r tok, rfl, hsent, rfl⟩
  · intro a c he
    rcases hmem _ he with h1 | h1
    · cases h1
      rfl
    · cases h1
  · intro b H p he
    rcases hmem _ he with h1 | h1
    · cases h1
    · cases h1
      rfl
  · rw [hrt.1]
    exact hsh.1

/-- Witness for C9, amended: with no transport configured the exchange and the
delegation both go to `http.DefaultTransport` (0); with transport 3 configured
the delegation goes to 3. -/
theorem transport_fallback_witness :
    (∃ rest, (RoundTrip exampleWorld emptyTransport exampleHeap 0).trace =
        Event.assert 1 ⟨0⟩ :: rest ∧ asserts rest = []) ∧
      (∃ pre H, (RoundTrip exampleWorld emptyTransport exampleHeap 0).trace =
          pre ++ [Event.roundTrip 0 H 1] ∧ sent pre = [] ∧
        (RoundTrip exampleWorld emptyTransport exampleHeap 0).result =
          Result.returned (some 7) none) ∧
      ∃ pre H, (RoundTrip exampleWorld validTransport exampleHeap 0).trace =
          pre ++ [Event.roundTrip 3 H 1] ∧ sent pre = [] ∧
        (RoundTrip exampleWorld validTransport exampleHeap 0).result =
          Result.returned (some 7) none :=
  ⟨(transport_fallback exampleWorld emptyTransport exampleHeap 0).2.2.2.1 rfl,
    (transport_fallback exampleWorld emptyTransport exampleHeap 0).2.2.2.2.2.1 ⟨"fresh", 0⟩
      ⟨"POST", "https://www.googleapis.com/identitytoolkit", 0, some 0⟩
      (Or.inr ⟨Or.inl rfl, rfl⟩) rfl,
    (transport_fallback exampleWorld validTransport exampleHeap 0).2.2.2.2.2.1 ⟨"cached", 500⟩
      ⟨"POST", "https://www.googleapis.com/identitytoolkit", 0, some 0⟩
      (Or.inl ⟨rfl, by decide⟩) rfl⟩

/-- C10, counterexample: two calls on a shared transport with no cached token.
After each has evaluated the condition of line 48, both are inside the
check-then-fetch-then-store sequence at once.  Run on, both call `Assert`; the
first call stores `first` and hands over its request with it, the second then
stores `second` over it: the two calls have used different credentials. -/
theorem concurrent_calls_counterexample :
    (run racingWorld (start emptyTransport twoRequests [0, 1]) [0, 1]).calls =
        [⟨0, Pc.fetch⟩, ⟨1, Pc.fetch⟩] ∧
      (run racingWorld (start emptyTransport twoRequests [0, 1]) [0, 1]).exclusive = false ∧
      (asserts (run racingWorld (start emptyTransport twoRequests [0, 1])
        [0, 1, 0, 1, 0, 0, 1, 1]).trace).length = 2 ∧
      (sent (run racingWorld (start emptyTransport twoRequests [0, 1])
        [0, 1, 0, 1, 0, 0, 1, 1]).trace).map
          (fun Hp => Hp.1.header Hp.2 "Authorization") =
        [some ["Bearer first"], some ["Bearer second"]] ∧
      (run racingWorld (start emptyTransport twoRequests [0, 1])
        [0, 1, 0, 1, 0, 0, 1, 1]).t.Token = some ⟨"second", 0⟩ ∧
      (run racingWorld (start emptyTransport twoRequests [0, 1])
        [0, 1, 0, 1, 0, 0, 1, 1]).calls =
        [⟨0, Pc.done (Result.returned (some 7) none)⟩,
          ⟨1, Pc.done (Result.returned (some 7) none)⟩] := by
  decide

/-- C10, amended (calls serialised from outside): `RoundTrip` takes no lock.
When calls on a shared transport with no cached token take their steps in any
order in which at most one call at a time is between the check of line 48 and
the store of line 53, and every exchange succeeds with a token that does not
expire (the tokens of different exchanges may differ), then in the state
reached `Assert` has been called at most once and there is one token `T` such
that the `Token` field is nil or `T`, every request handed to the base
transport carries, in the heap the base transport is shown,
`Authorization: Bearer` with the `AccessToken` of `T`, and every call that has
returned did so with a (response, error) pair while `T` is cached after a
single fetch; the base transport has been called once for each call that has
returned, and a call that has taken four steps has returned. -/
theorem serialised_calls_single_fetch (ws : Nat → World) (t : ServiceAccountTransport)
    (h : Heap) (reqs : List Nat) (sched : List Nat)
    (hnil : t.Token = none)
    (hA : ∀ n a c, ∃ T, (ws n).Assert a c = (some T, none) ∧
      ∀ m, (ws m).Expired T = false)
    (hreqs : ∀ r ∈ reqs, r < h.reqs.length)
    (hex : exclusiveAlong ws (start t h reqs) sched = true) :
    (asserts (run ws (start t h reqs) sched).trace).length ≤ 1 ∧
      (∃ T : Token,
        ((run ws (start t h reqs) sched).t.Token = none ∨
          (run ws (start t h reqs) sched).t.Token = some T) ∧
        (∀ Hp ∈ sent (run ws (start t h reqs) sched).trace,
          Hp.1.header Hp.2 "Authorization" = some ["Bearer " ++ T.AccessToken]) ∧
        (∀ c ∈ (run ws (start t h reqs) sched).calls, ∀ res, c.pc = Pc.done res →
          (run ws (start t h reqs) sched).t.Token = some T ∧
            (asserts (run ws (start t h reqs) sched).trace).length = 1 ∧
            ∃ resp err, res = Result.returned resp err)) ∧
      (sent (run ws (start t h reqs) sched).trace).length =
        (run ws (start t h reqs) sched).calls.countP (fun c => c.pc.isDone) ∧
      (∀ i, i < reqs.length → 4 ≤ sched.count i →
        ∃ c res, (run ws (start t h reqs) sched).calls[i]? = some c ∧
          c.pc = Pc.done res) := by
  have hinv := run_serialised ws sched (start t h reqs) hA
    (start_serialised ws t h reqs hnil hreqs) hex
  obtain ⟨T, hphase⟩ := hinv.phase
  refine ⟨?_, ⟨T, ?_, ?_, ?_⟩, hinv.counted, ?_⟩
  · rcases hphase with ⟨-, has, -⟩ | ⟨-, -, has, -⟩ | ⟨-, -, has, -⟩
    · simp [has]
    · exact Nat.le_of_eq has
    · exact Nat.le_of_eq has
  · rcases hphase with ⟨htok, -⟩ | ⟨-, htok, -⟩ | ⟨-, htok, -⟩
    · exact Or.inl htok
    · exact Or.inl htok
    · exact Or.inr htok
  · intro Hp hHp
    rcases hphase with ⟨-, -, hse, -⟩ | ⟨-, -, -, hse, -⟩ | ⟨-, -, -, hbe, -⟩
    · rw [hse] at hHp
      cases hHp
    · rw [hse] at hHp
      cases hHp
    · exact hbe Hp hHp
  · intro c hc res hres
    rcases hphase with ⟨-, -, -, hall⟩ | ⟨-, -, -, -, i0, c0, hc0, hpc0, hothers⟩ |
      ⟨-, htok, has, -, -⟩
    · rcases hall c hc with h1 | h1 <;> rw [hres] at h1 <;> cases h1
    · exfalso
      obtain ⟨j, hj⟩ := List.mem_iff_getElem?.mp hc
      by_cases hji : j = i0
      · subst hji
        rw [hj] at hc0
        cases hc0
        rw [hres] at hpc0
        cases hpc0
      · have h1 := hothers j c hji hj
        rw [hres] at h1
        cases h1
    · exact ⟨htok, has, hinv.returned c hc res hres⟩
  · intro i hi hcount
    have hstart : (start t h reqs).calls[i]? = some ⟨reqs[i], Pc.check⟩ := by
      simp [start, List.getElem?_map, List.getElem?_eq_getElem hi]
    obtain ⟨c1, hc1, -, hrank⟩ := run_rank ws sched (start t h reqs) i _ hstart
    have hrank4 : c1.pc.rank ≤ 4 - sched.count i := hrank
    have h0 : c1.pc.rank = 0 := by omega
    obtain ⟨res, hres⟩ := done_of_rank_zero c1.pc h0
    exact ⟨c1, res, hc1, hres⟩

/-- Witness for C10, amended: in the world whose exchanges issue `first` and
then `second`, two calls of which the second starts after the first has stored
its token make one fetch and both hand over `Bearer first`. -/
theorem serialised_calls_single_fetch_witness :
    (asserts (run racingWorld (start emptyTransport twoRequests [0, 1])
        [0, 0, 0, 1, 1, 0]).trace).length ≤ 1 ∧
      (∃ T : Token, ∀ Hp ∈ sent (run racingWorld (start emptyTransport twoRequests [0, 1])
          [0, 0, 0, 1, 1, 0]).trace,
        Hp.1.header Hp.2 "Authorization" = some ["Bearer " ++ T.AccessToken]) ∧
      (sent (run racingWorld (start emptyTransport twoRequests [0, 1])
        [0, 0, 0, 1, 1, 0]).trace).map (fun Hp => Hp.1.header Hp.2 "Authorization") =
        [some ["Bearer first"], some ["Bearer first"]] ∧
      (run racingWorld (start emptyTransport twoRequests [0, 1]) [0, 0, 0, 1, 1, 0]).calls =
        [⟨0, Pc.done (Result.returned (some 7) none)⟩,
          ⟨1, Pc.done (Result.returned (some 7) none)⟩] :=
  have h := serialised_calls_single_fetch racingWorld emptyTransport twoRequests
    [0, 1] [0, 0, 0, 1, 1, 0] rfl
    (fun n _ _ => ⟨⟨if n = 0 then "first" else "second", 0⟩, rfl, fun _ => rfl⟩)
    (by decide) (by decide)
  ⟨h.1, h.2.1.imp fun _ hT => hT.2.1, by decide, by decide⟩

end Gitkit
